import Mathlib

/-!
Shallow embedding of the Brain log-template miner (`parser/brain.go`).

Go maps are modelled as association lists in key-insertion order
(`mapGet`/`mapSet` below); Go's `int` is modelled as `Int`; the
`float64` threshold fraction is modelled as `Rat`, with Go's `int(...)`
conversion modelled as truncation toward zero (`goTrunc`).  Regular
expressions live outside this repository, so the masking patterns of
`LogParser` are modelled as abstract string transforms (each standing
for `re.ReplaceAllString · "<*>"`), and `regexp.Compile` is an abstract
parameter of `NewLogParser`.
-/

namespace BrainGo

/-- Read a key from a Go map modelled as an association list. -/
def mapGet {α β : Type} [BEq α] (m : List (α × β)) (k : α) : Option β :=
  List.lookup k m

/-- Write through a Go map modelled as an association list: update the
entry for the key in place if present, otherwise append a new entry
(Go `m[k] = f(m[k])`, including creation from the zero value). -/
def mapSet {α β : Type} [BEq α] (m : List (α × β)) (k : α) (f : Option β → β) :
    List (α × β) :=
  match m with
  | [] => [(k, f none)]
  | (k', v) :: rest =>
    if k == k' then (k', f (some v)) :: rest else (k', v) :: mapSet rest k f

/-- Whitespace test used by Go's `strings.Fields` (`unicode.IsSpace`),
restricted to the Latin-1 range; wider Unicode space code points do not
occur in the inputs considered here. -/
def isSpace (c : Char) : Bool :=
  c = ' ' || c = '\t' || c = '\n' || c = '\u000b' || c = '\u000c' ||
  c = '\r' || c = '\u0085' || c = '\u00A0'

/-- Character-level core of Go's `strings.Fields`: collect maximal runs
of non-whitespace characters; `cur` is the reversed run currently
open. -/
def fieldsCharAux (cur : List Char) : List Char → List (List Char)
  | [] => if cur = [] then [] else [cur.reverse]
  | c :: cs =>
    if isSpace c then
      if cur = [] then fieldsCharAux [] cs
      else cur.reverse :: fieldsCharAux [] cs
    else fieldsCharAux (c :: cur) cs

/-- Go's `strings.Fields`: split a string into its whitespace-separated
tokens, producing no empty tokens. -/
def fields (s : String) : List String :=
  (fieldsCharAux [] s.data).map (fun cs => String.mk cs)

/-- `LogParser` holds the parsing configuration.  Each element of
`RegexPatterns` stands for the transform `re.ReplaceAllString · "<*>"`
of one compiled pattern. -/
structure LogParser where
  RegexPatterns : List (String → String)

/-- `NewLogParserAux compile patterns rest` is the compilation loop of
`NewLogParser`: `patterns` are the already-compiled patterns, `rest`
the remaining pattern strings; the first compile failure aborts with
that error before any line could be processed. -/
def NewLogParserAux (compile : String → Except String (String → String))
    (patterns : List (String → String)) :
    List String → Except String LogParser
  | [] => .ok { RegexPatterns := patterns }
  | s :: rest =>
    match compile s with
    | .error err => .error err
    | .ok re => NewLogParserAux compile (patterns ++ [re]) rest

/-- `NewLogParser` initialises the parser from a list of regex strings,
failing on the first string that does not compile.  `compile` abstracts
`regexp.Compile` (the regex engine is outside this repository). -/
def NewLogParser (compile : String → Except String (String → String))
    (regexStrings : List String) : Except String LogParser :=
  NewLogParserAux compile [] regexStrings

/-- `Preprocess` cleans a log line by applying every pattern's
replace-all-with-`<*>` transform in list order. -/
def LogParser.Preprocess (lp : LogParser) (logLine : String) : String :=
  lp.RegexPatterns.foldl (fun line re => re line) logLine

/-- A single word of a processed line together with its frequency. -/
structure LogToken where
  Content : String
  Frequency : Int
deriving DecidableEq, Repr, Inhabited

/-- A processed log line. -/
structure LogEntry where
  LineID : Nat
  Tokens : List LogToken
deriving DecidableEq, Repr, Inhabited

/-- Logs of equal token count together with the per-column statistics
`ColumnCounts : column index -> token content -> occurrence count`. -/
structure LogGroup where
  Length : Nat
  Logs : List LogEntry
  ColumnCounts : List (Nat × List (String × Int))
deriving DecidableEq, Repr, Inhabited

/-- Read `ColumnCounts[i][s]` with Go zero-value semantics: a missing
column or content reads as 0. -/
def colCount (cc : List (Nat × List (String × Int))) (i : Nat) (s : String) : Int :=
  (mapGet ((mapGet cc i).getD []) s).getD 0

/-- The frequency-counting inner loop of `Vectorize`
(`group.ColumnCounts[i][t]++` over the tokens of one line, paired with
their column indices). -/
def bumpCounts (cc : List (Nat × List (String × Int)))
    (indexed : List (Nat × String)) : List (Nat × List (String × Int)) :=
  indexed.foldl
    (fun cc q => mapSet cc q.1 (fun oi => mapSet (oi.getD []) q.2 (fun oc => oc.getD 0 + 1)))
    cc

/-- Token count of a raw line after preprocessing, the key of its
length group. -/
def tokLen (lp : LogParser) (line : String) : Nat :=
  (fields (lp.Preprocess line)).length

/-- The `LogEntry` built for one raw line (with its position as
`LineID`); each token starts with the zero-value frequency 0, filled in
by the second pass. -/
def rawEntry (lp : LogParser) (p : Nat × String) : LogEntry :=
  { LineID := p.1,
    Tokens := (fields (lp.Preprocess p.2)).map (fun t => { Content := t, Frequency := 0 }) }

/-- The group a length key starts from: Go's group initialisation. -/
def emptyGroup (len : Nat) : LogGroup :=
  { Length := len, Logs := [], ColumnCounts := [] }

/-- One iteration of the `Vectorize` loop: preprocess and tokenize one
raw line, append its entry to the length group matching its token count
(creating the group on first encounter), and count its tokens into the
group's column table. -/
def vectorizeStep (lp : LogParser) (groups : List (Nat × LogGroup))
    (p : Nat × String) : List (Nat × LogGroup) :=
  mapSet groups (tokLen lp p.2) (fun og =>
    let group := og.getD (emptyGroup (tokLen lp p.2))
    { group with
        Logs := group.Logs ++ [rawEntry lp p],
        ColumnCounts := bumpCounts group.ColumnCounts (fields (lp.Preprocess p.2)).enum })

/-- The inner loop of the second pass of `Vectorize`: rewrite one log's
tokens with the frequency looked up at their own column and content. -/
def assignFreqsEntry (cc : List (Nat × List (String × Int))) (log : LogEntry) : LogEntry :=
  { log with
      Tokens := log.Tokens.enum.map (fun q =>
        { q.2 with Frequency := colCount cc q.1 q.2.Content }) }

/-- The second pass of `Vectorize`: write each token's group-level
frequency back into the token by looking up its own column and content
in the group's table. -/
def setFrequencies (group : LogGroup) : LogGroup :=
  { group with Logs := group.Logs.map (assignFreqsEntry group.ColumnCounts) }

/-- `Vectorize` performs preprocessing, tokenisation, grouping by token
count, and the two frequency passes; result is the map length ->
LogGroup. -/
def LogParser.Vectorize (lp : LogParser) (rawLogs : List String) :
    List (Nat × LogGroup) :=
  ((rawLogs.enum).foldl (vectorizeStep lp) []).map (fun p => (p.1, setFrequencies p.2))

/-- A group of logs sharing one longest-common-pattern signature. -/
structure InitialGroup where
  Signature : String
  Logs : List LogEntry
  RootFrequency : Int
deriving DecidableEq, Repr, Inhabited

/-- Step 1 of the per-line root selection: group the token indices of a
line by their frequency (`freqToIndices`). -/
def buildFreqToIndices (tokens : List LogToken) : List (Int × List Nat) :=
  tokens.enum.foldl (fun m q => mapSet m q.2.Frequency (fun o => (o.getD []) ++ [q.1])) []

/-- The running maximum frequency among a line's tokens
(`maxFreqInLog`, initialised to 0). -/
def maxFreqInLog (tokens : List LogToken) : Int :=
  tokens.foldl (fun mx tok => if tok.Frequency > mx then tok.Frequency else mx) 0

/-- Go's `int(...)` conversion of a nonnegative-or-negative rational:
truncation toward zero.  (`float64` arithmetic is modelled as exact
rational arithmetic.) -/
def goTrunc (q : Rat) : Int := q.num.tdiv q.den

/-- One iteration of the threshold-filtered candidate-selection loop of
`GroupByLCP`; the state is `(bestFreq, maxWordCount)`. -/
def selStep (threshold : Int) (s : Int × Int) (p : Int × List Nat) : Int × Int :=
  if p.1 < threshold then s
  else if (p.2.length : Int) > s.2 then (p.1, (p.2.length : Int))
  else if (p.2.length : Int) = s.2 then (if p.1 > s.1 then (p.1, s.2) else s)
  else s

/-- One iteration of the fallback selection loop of `GroupByLCP`: the
same longest-then-highest-frequency selection (`count` inlined as in
`selStep`) without the threshold filter. -/
def selStepAll (s : Int × Int) (p : Int × List Nat) : Int × Int :=
  if (p.2.length : Int) > s.2 then (p.1, (p.2.length : Int))
  else if (p.2.length : Int) = s.2 then (if p.1 > s.1 then (p.1, s.2) else s)
  else s

/-- The complete candidate selection of `GroupByLCP`: the filtered pass
from `(-1, -1)`, then, only if no combination reached the threshold
(`bestFreq = -1`), the fallback pass over all frequency values. -/
def selectFrom (threshold : Int) (m : List (Int × List Nat)) : Int × Int :=
  let p1 := m.foldl (selStep threshold) (-1, -1)
  if p1.1 = -1 then m.foldl selStepAll p1 else p1

/-- The threshold of one line: `int(float64(maxFreqInLog) * w)`. -/
def lineThreshold (w : Rat) (log : LogEntry) : Int :=
  goTrunc ((maxFreqInLog log.Tokens : Rat) * w)

/-- The `(bestFreq, maxWordCount)` pair selected for one line. -/
def lineBest (w : Rat) (log : LogEntry) : Int × Int :=
  selectFrom (lineThreshold w log) (buildFreqToIndices log.Tokens)

/-- The root set of one line: `freqToIndices[bestFreq]` (Go zero value
`nil` if `bestFreq` is not a key). -/
def lineRoot (w : Rat) (log : LogEntry) : List Nat :=
  (mapGet (buildFreqToIndices log.Tokens) (lineBest w log).1).getD []

/-- The signature builder loop of `GroupByLCP`: a space before every
token but the first, then the token itself if its index is in the root
set and `<*>` otherwise.  Written as the equivalent right-nested
append. -/
def joinSpaced : List String → String
  | [] => ""
  | [t] => t
  | t :: rest => t ++ " " ++ joinSpaced rest

/-- Build the signature of a line from a root-index set. -/
def buildSignature (rootIndices : List Nat) (tokens : List LogToken) : String :=
  joinSpaced (tokens.enum.map (fun q =>
    if rootIndices.contains q.1 then q.2.Content else "<*>"))

/-- The signature computed for one line by `GroupByLCP`. -/
def lineSignature (w : Rat) (log : LogEntry) : String :=
  buildSignature (lineRoot w log) log.Tokens

/-- One iteration of the `GroupByLCP` loop: compute the log's signature
and append the log to the initial group of that signature, creating the
group with `RootFrequency := bestFreq` on first occurrence. -/
def lcpStep (thresholdPercent : Rat)
    (initialGroups : List (String × InitialGroup)) (log : LogEntry) :
    List (String × InitialGroup) :=
  mapSet initialGroups (lineSignature thresholdPercent log) (fun og =>
    let g := og.getD
      { Signature := lineSignature thresholdPercent log, Logs := [],
        RootFrequency := (lineBest thresholdPercent log).1 }
    { g with Logs := g.Logs ++ [log] })

/-- `GroupByLCP` splits a length group into initial clusters: for every
log, select its best frequency, build its signature, and append the log
to the initial group of that signature. -/
def LogGroup.GroupByLCP (lg : LogGroup) (thresholdPercent : Rat) :
    List (String × InitialGroup) :=
  lg.Logs.foldl (lcpStep thresholdPercent) []

/-! ### Association-map laws -/

/-- Keys of a modelled Go map. -/
def keysOf {α β : Type} (m : List (α × β)) : List α := m.map Prod.fst

theorem mapGet_mapSet_self {α β : Type} [BEq α] [LawfulBEq α]
    (m : List (α × β)) (k : α) (f : Option β → β) :
    mapGet (mapSet m k f) k = some (f (mapGet m k)) := by
  induction m with
  | nil => simp [mapGet, mapSet, List.lookup]
  | cons hd tl ih =>
    obtain ⟨k', v⟩ := hd
    by_cases h : k = k'
    · subst h
      simp [mapGet, mapSet, List.lookup]
    · have hbeq : (k == k') = false := beq_false_of_ne h
      simp only [mapSet, hbeq, Bool.false_eq_true, if_false]
      simpa [mapGet, List.lookup, hbeq] using ih

theorem mapGet_mapSet_ne {α β : Type} [BEq α] [LawfulBEq α]
    (m : List (α × β)) (k k' : α) (f : Option β → β) (h : k' ≠ k) :
    mapGet (mapSet m k f) k' = mapGet m k' := by
  induction m with
  | nil =>
    have hbeq : (k' == k) = false := beq_false_of_ne h
    simp [mapGet, mapSet, List.lookup, hbeq]
  | cons hd tl ih =>
    obtain ⟨k'', v⟩ := hd
    by_cases h2 : k = k''
    · subst h2
      have hbeq : (k' == k) = false := beq_false_of_ne h
      simp [mapGet, mapSet, List.lookup, hbeq]
    · have hbeq : (k == k'') = false := beq_false_of_ne h2
      simp only [mapSet, hbeq, Bool.false_eq_true, if_false]
      by_cases h3 : k' = k''
      · subst h3
        simp [mapGet, List.lookup]
      · have hbeq3 : (k' == k'') = false := beq_false_of_ne h3
        simpa [mapGet, List.lookup, hbeq3] using ih

theorem mapGet_mapSet_eq_none_iff {α β : Type} [BEq α] [LawfulBEq α]
    (m : List (α × β)) (k k' : α) (f : Option β → β) :
    mapGet (mapSet m k f) k' = none ↔ mapGet m k' = none ∧ k' ≠ k := by
  by_cases h : k' = k
  · subst h
    simp [mapGet_mapSet_self]
  · simp [mapGet_mapSet_ne m k k' f h, h]

theorem keysOf_mapSet_of_none {α β : Type} [BEq α] [LawfulBEq α]
    {m : List (α × β)} {k : α} (f : Option β → β) (h : mapGet m k = none) :
    keysOf (mapSet m k f) = keysOf m ++ [k] := by
  induction m with
  | nil => simp [keysOf, mapSet]
  | cons hd tl ih =>
    obtain ⟨k', v⟩ := hd
    by_cases hk : k = k'
    · subst hk
      simp [mapGet, List.lookup] at h
    · have hbeq : (k == k') = false := beq_false_of_ne hk
      simp only [mapGet, List.lookup_cons, hbeq] at h
      simp only [mapSet, hbeq, Bool.false_eq_true, if_false, keysOf, List.map_cons,
        List.cons_append]
      exact congrArg (List.cons k') (ih h)

theorem keysOf_mapSet_of_some {α β : Type} [BEq α] [LawfulBEq α]
    {m : List (α × β)} {k : α} {v : β} (f : Option β → β) (h : mapGet m k = some v) :
    keysOf (mapSet m k f) = keysOf m := by
  induction m with
  | nil => simp [mapGet, List.lookup] at h
  | cons hd tl ih =>
    obtain ⟨k', v'⟩ := hd
    by_cases hk : k = k'
    · subst hk
      simp [mapSet, keysOf]
    · have hbeq : (k == k') = false := beq_false_of_ne hk
      simp only [mapGet, List.lookup_cons, hbeq] at h
      simp only [mapSet, hbeq, Bool.false_eq_true, if_false, keysOf, List.map_cons]
      exact congrArg (List.cons k') (ih h)

theorem keysOf_nodup_mapSet {α β : Type} [BEq α] [LawfulBEq α]
    (m : List (α × β)) (k : α) (f : Option β → β) (h : (keysOf m).Nodup) :
    (keysOf (mapSet m k f)).Nodup := by
  cases hget : mapGet m k with
  | none =>
    rw [keysOf_mapSet_of_none f hget]
    rw [List.nodup_append]
    refine ⟨h, List.nodup_singleton k, ?_⟩
    intro a ha hb
    simp only [List.mem_singleton] at hb
    subst hb
    rw [mapGet, List.lookup_eq_none_iff] at hget
    obtain ⟨p, hp, hpk⟩ := List.mem_map.mp ha
    have := hget p hp
    rw [hpk] at this
    simp at this
  | some v => rw [keysOf_mapSet_of_some f hget]; exact h

theorem mapGet_eq_some_of_mem_nodup {α β : Type} [BEq α] [LawfulBEq α]
    {m : List (α × β)} {k : α} {v : β} (hn : (keysOf m).Nodup)
    (hm : (k, v) ∈ m) : mapGet m k = some v := by
  induction m with
  | nil => cases hm
  | cons hd tl ih =>
    obtain ⟨k', v'⟩ := hd
    rcases List.mem_cons.mp hm with h | h
    · injection h with h1 h2
      subst h1
      subst h2
      simp [mapGet, List.lookup]
    · have hk : k ≠ k' := by
        rintro rfl
        have : k ∈ keysOf tl := List.mem_map.mpr ⟨(k, v), h, rfl⟩
        simp only [keysOf, List.map_cons, List.nodup_cons] at hn
        exact hn.1 this
      have hbeq : (k == k') = false := beq_false_of_ne hk
      have hn' : (keysOf tl).Nodup := by
        simp only [keysOf, List.map_cons, List.nodup_cons] at hn
        exact hn.2
      simpa [mapGet, List.lookup, hbeq] using ih hn' h

theorem mem_of_mapGet_eq_some {α β : Type} [BEq α] [LawfulBEq α]
    {m : List (α × β)} {k : α} {v : β} (h : mapGet m k = some v) : (k, v) ∈ m := by
  induction m with
  | nil => simp [mapGet, List.lookup] at h
  | cons hd tl ih =>
    obtain ⟨k', v'⟩ := hd
    by_cases hk : k = k'
    · subst hk
      simp only [mapGet, List.lookup_cons, beq_self_eq_true] at h
      injection h with h
      subst h
      exact List.mem_cons_self _ _
    · have hbeq : (k == k') = false := beq_false_of_ne hk
      simp only [mapGet, List.lookup_cons, hbeq] at h
      exact List.mem_cons_of_mem _ (ih h)

theorem mapGet_length_mapSet {α β : Type} [BEq α] [LawfulBEq α]
    (m : List (α × β)) (k : α) (f : Option β → β) (h : mapGet m k = none) :
    (mapSet m k f).length = m.length + 1 := by
  induction m with
  | nil => simp [mapSet]
  | cons hd tl ih =>
    obtain ⟨k', v⟩ := hd
    by_cases hk : k = k'
    · subst hk
      simp [mapGet, List.lookup] at h
    · have hbeq : (k == k') = false := beq_false_of_ne hk
      simp only [mapGet, List.lookup_cons, hbeq] at h
      simp [mapSet, hbeq, ih h]

/-- Looking up in a permuted map with duplicate-free keys gives the
same answer. -/
theorem mapGet_perm {α β : Type} [BEq α] [LawfulBEq α]
    {m m' : List (α × β)} (hp : m.Perm m') (hn : (keysOf m).Nodup) (k : α) :
    mapGet m k = mapGet m' k := by
  have hn' : (keysOf m').Nodup := (hp.map Prod.fst).nodup_iff.mp hn
  cases h : mapGet m k with
  | none =>
    symm
    rw [mapGet, List.lookup_eq_none_iff] at h ⊢
    intro p hp'
    exact h p (hp.symm.subset hp')
  | some v =>
    exact (mapGet_eq_some_of_mem_nodup hn' (hp.subset (mem_of_mapGet_eq_some h))).symm

/-! ### Truncation and maxima -/

theorem goTrunc_eq_floor {q : Rat} (h : 0 ≤ q) : goTrunc q = ⌊q⌋ := by
  rw [goTrunc, Int.tdiv_eq_ediv (Rat.num_nonneg.mpr h) (Int.ofNat_nonneg q.den),
    Rat.floor_def]

theorem goTrunc_le_of_le_one {n : Int} {w : Rat} (hn : 0 ≤ n) (h0 : 0 ≤ w)
    (h1 : w ≤ 1) : goTrunc ((n : Rat) * w) ≤ n := by
  have hq : (0 : Rat) ≤ (n : Rat) * w :=
    mul_nonneg (by exact_mod_cast hn) h0
  rw [goTrunc_eq_floor hq]
  have : (n : Rat) * w ≤ (n : Rat) := by
    calc (n : Rat) * w ≤ (n : Rat) * 1 := by
          exact mul_le_mul_of_nonneg_left h1 (by exact_mod_cast hn)
      _ = (n : Rat) := mul_one _
  calc ⌊(n : Rat) * w⌋ ≤ ⌊(n : Rat)⌋ := Int.floor_le_floor this
    _ = n := Int.floor_intCast n

theorem foldlMax_ge_init (l : List LogToken) (s : Int) :
    s ≤ l.foldl (fun mx t => if t.Frequency > mx then t.Frequency else mx) s := by
  induction l generalizing s with
  | nil => simp
  | cons hd tl ih =>
    simp only [List.foldl_cons]
    refine le_trans ?_ (ih _)
    split <;> omega

theorem le_maxFreqInLog {tokens : List LogToken} {tok : LogToken}
    (h : tok ∈ tokens) : tok.Frequency ≤ maxFreqInLog tokens := by
  suffices H : ∀ (l : List LogToken) (s : Int), tok ∈ l →
      tok.Frequency ≤ l.foldl (fun mx t => if t.Frequency > mx then t.Frequency else mx) s by
    exact H tokens 0 h
  intro l
  induction l with
  | nil => intro s h; cases h
  | cons hd tl ih =>
    intro s h
    rcases List.mem_cons.mp h with h | h
    · subst h
      simp only [List.foldl_cons]
      refine le_trans ?_ (foldlMax_ge_init tl _)
      split <;> omega
    · exact ih _ h

theorem maxFreqInLog_nonneg (tokens : List LogToken) : 0 ≤ maxFreqInLog tokens :=
  foldlMax_ge_init tokens 0

theorem maxFreqInLog_mem {tokens : List LogToken}
    (h : ∃ tok ∈ tokens, 1 ≤ tok.Frequency) :
    ∃ tok ∈ tokens, tok.Frequency = maxFreqInLog tokens := by
  suffices H : ∀ (l : List LogToken) (s : Int),
      (l.foldl (fun mx t => if t.Frequency > mx then t.Frequency else mx) s = s) ∨
      (∃ tok ∈ l, tok.Frequency =
        l.foldl (fun mx t => if t.Frequency > mx then t.Frequency else mx) s) by
    rcases H tokens 0 with h0 | h0
    · obtain ⟨tok, htok, h1⟩ := h
      have := le_maxFreqInLog htok
      rw [maxFreqInLog] at *
      omega
    · exact h0
  intro l
  induction l with
  | nil => intro s; left; rfl
  | cons hd tl ih =>
    intro s
    simp only [List.foldl_cons]
    by_cases hc : hd.Frequency > s
    · simp only [if_pos hc]
      rcases ih hd.Frequency with h0 | h0
      · right; exact ⟨hd, List.mem_cons_self _ _, h0.symm⟩
      · right
        obtain ⟨tok, htok, heq⟩ := h0
        exact ⟨tok, List.mem_cons_of_mem _ htok, heq⟩
    · simp only [if_neg hc]
      rcases ih s with h0 | h0
      · left; exact h0
      · right
        obtain ⟨tok, htok, heq⟩ := h0
        exact ⟨tok, List.mem_cons_of_mem _ htok, heq⟩

/-! ### Characterisation of freqToIndices -/

/-- Indices recorded for frequency `f`, with Go `nil`-slice read. -/
def getIdx (m : List (Int × List Nat)) (f : Int) : List Nat :=
  (mapGet m f).getD []

theorem buildFreqToIndices_fold (ind : List (Nat × LogToken))
    (m : List (Int × List Nat)) (f : Int) :
    getIdx (ind.foldl (fun m q => mapSet m q.2.Frequency (fun o => (o.getD []) ++ [q.1])) m) f =
      getIdx m f ++ (ind.filter (fun q => q.2.Frequency == f)).map Prod.fst := by
  induction ind generalizing m with
  | nil => simp
  | cons hd tl ih =>
    simp only [List.foldl_cons, List.filter_cons]
    rw [ih]
    by_cases h : hd.2.Frequency = f
    · have hkey : getIdx (mapSet m hd.2.Frequency fun o => o.getD [] ++ [hd.1]) f =
          getIdx m f ++ [hd.1] := by
        subst h
        rw [getIdx, mapGet_mapSet_self]
        rfl
      have hb : (hd.2.Frequency == f) = true := beq_iff_eq.mpr h
      simp [hb, hkey, List.append_assoc]
    · have hkey : getIdx (mapSet m hd.2.Frequency fun o => o.getD [] ++ [hd.1]) f =
          getIdx m f := by
        rw [getIdx, mapGet_mapSet_ne _ _ _ _ (Ne.symm h), getIdx]
      have hb : (hd.2.Frequency == f) = false := beq_false_of_ne h
      simp [hb, hkey]

theorem getIdx_buildFreqToIndices (tokens : List LogToken) (f : Int) :
    getIdx (buildFreqToIndices tokens) f =
      (tokens.enum.filter (fun q => q.2.Frequency == f)).map Prod.fst := by
  rw [buildFreqToIndices, buildFreqToIndices_fold]
  simp [getIdx, mapGet, List.lookup]

theorem buildFreqToIndices_key_fold (ind : List (Nat × LogToken))
    (m : List (Int × List Nat)) (f : Int) :
    mapGet (ind.foldl (fun m q => mapSet m q.2.Frequency (fun o => (o.getD []) ++ [q.1])) m) f = none ↔
      mapGet m f = none ∧ ∀ q ∈ ind, q.2.Frequency ≠ f := by
  induction ind generalizing m with
  | nil => simp
  | cons hd tl ih =>
    simp only [List.foldl_cons]
    rw [ih, mapGet_mapSet_eq_none_iff]
    constructor
    · rintro ⟨⟨h1, h2⟩, h3⟩
      exact ⟨h1, by
        intro q hq
        rcases List.mem_cons.mp hq with h | h
        · subst h; exact fun hc => h2 hc.symm
        · exact h3 q h⟩
    · rintro ⟨h1, h2⟩
      exact ⟨⟨h1, fun hc => h2 hd (List.mem_cons_self _ _) hc.symm⟩,
        fun q hq => h2 q (List.mem_cons_of_mem _ hq)⟩

theorem mapGet_buildFreqToIndices_eq_none_iff (tokens : List LogToken) (f : Int) :
    mapGet (buildFreqToIndices tokens) f = none ↔
      ∀ tok ∈ tokens, tok.Frequency ≠ f := by
  rw [buildFreqToIndices, buildFreqToIndices_key_fold]
  have hnil : mapGet ([] : List (Int × List Nat)) f = none := rfl
  simp only [hnil, true_and]
  constructor
  · intro h tok htok
    obtain ⟨i, hi⟩ := List.get?_of_mem htok
    exact h (i, tok) (List.mem_enum_iff_get?.mpr hi)
  · intro h q hq
    exact h q.2 (List.get?_mem (List.mem_enum_iff_get?.mp hq))

theorem keysOf_buildFreqToIndices_nodup (tokens : List LogToken) :
    (keysOf (buildFreqToIndices tokens)).Nodup := by
  suffices H : ∀ (ind : List (Nat × LogToken)) (m : List (Int × List Nat)),
      (keysOf m).Nodup →
      (keysOf (ind.foldl (fun m q => mapSet m q.2.Frequency (fun o => (o.getD []) ++ [q.1])) m)).Nodup by
    exact H _ [] (by simp [keysOf])
  intro ind
  induction ind with
  | nil => intro m hm; exact hm
  | cons hd tl ih =>
    intro m hm
    exact ih _ (keysOf_nodup_mapSet _ _ _ hm)

/-! ### Selection theory -/

/-- Lexicographic comparison on `(maxWordCount, bestFreq)` states:
`lexGe r s` says state `r` is at least as good as state `s`. -/
def lexGe (r s : Int × Int) : Prop := s.2 < r.2 ∨ (s.2 = r.2 ∧ s.1 ≤ r.1)

theorem lexGe_refl (s : Int × Int) : lexGe s s := by
  right; exact ⟨rfl, le_refl _⟩

theorem lexGe_trans {a b c : Int × Int} (h1 : lexGe a b) (h2 : lexGe b c) :
    lexGe a c := by
  rcases h1 with h1 | ⟨h1, h1'⟩ <;> rcases h2 with h2 | ⟨h2, h2'⟩ <;>
    [left; left; left; right] <;> omega

theorem selStep_lexGe (th : Int) (s : Int × Int) (p : Int × List Nat) :
    lexGe (selStep th s p) s := by
  rcases s with ⟨a, b⟩
  simp only [selStep, lexGe]
  split_ifs <;> simp_all <;> omega

theorem selStepAll_lexGe (s : Int × Int) (p : Int × List Nat) :
    lexGe (selStepAll s p) s := by
  rcases s with ⟨a, b⟩
  simp only [selStepAll, lexGe]
  split_ifs <;> simp_all <;> omega

theorem selfold_lexGe (th : Int) (m : List (Int × List Nat)) (s : Int × Int) :
    lexGe (m.foldl (selStep th) s) s := by
  induction m generalizing s with
  | nil => exact lexGe_refl s
  | cons hd tl ih =>
    exact lexGe_trans (ih (selStep th s hd)) (selStep_lexGe th s hd)

theorem allfold_lexGe (m : List (Int × List Nat)) (s : Int × Int) :
    lexGe (m.foldl selStepAll s) s := by
  induction m generalizing s with
  | nil => exact lexGe_refl s
  | cons hd tl ih =>
    exact lexGe_trans (ih (selStepAll s hd)) (selStepAll_lexGe s hd)

theorem selStep_domin (th : Int) (s : Int × Int) {p : Int × List Nat}
    (hth : th ≤ p.1) : lexGe (selStep th s p) (p.1, (p.2.length : Int)) := by
  rcases s with ⟨a, b⟩
  rcases p with ⟨f, l⟩
  simp only at hth
  simp only [selStep, lexGe]
  split_ifs <;> simp_all <;> omega

theorem selStepAll_domin (s : Int × Int) (p : Int × List Nat) :
    lexGe (selStepAll s p) (p.1, (p.2.length : Int)) := by
  rcases s with ⟨a, b⟩
  rcases p with ⟨f, l⟩
  simp only [selStepAll, lexGe]
  split_ifs <;> simp_all <;> omega

/-- The filtered selection fold dominates every map entry that passes
the threshold. -/
theorem selfold_domin (th : Int) {m : List (Int × List Nat)} (s : Int × Int)
    {q : Int × List Nat} (hq : q ∈ m) (hth : th ≤ q.1) :
    lexGe (m.foldl (selStep th) s) (q.1, (q.2.length : Int)) := by
  induction m generalizing s with
  | nil => cases hq
  | cons hd tl ih =>
    rcases List.mem_cons.mp hq with h | h
    · subst h
      exact lexGe_trans (selfold_lexGe th tl (selStep th s q)) (selStep_domin th s hth)
    · exact ih _ h

/-- The fallback selection fold dominates every map entry. -/
theorem allfold_domin {m : List (Int × List Nat)} (s : Int × Int)
    {q : Int × List Nat} (hq : q ∈ m) :
    lexGe (m.foldl selStepAll s) (q.1, (q.2.length : Int)) := by
  induction m generalizing s with
  | nil => cases hq
  | cons hd tl ih =>
    rcases List.mem_cons.mp hq with h | h
    · subst h
      exact lexGe_trans (allfold_lexGe tl (selStepAll s q)) (selStepAll_domin s q)
    · exact ih _ h

theorem selStep_cases (th : Int) (s : Int × Int) (p : Int × List Nat) :
    selStep th s p = s ∨ (th ≤ p.1 ∧ selStep th s p = (p.1, (p.2.length : Int))) := by
  rcases s with ⟨a, b⟩
  rcases p with ⟨f, l⟩
  simp only [selStep]
  split_ifs <;> simp_all [Prod.mk.injEq] <;> omega

theorem selStepAll_cases (s : Int × Int) (p : Int × List Nat) :
    selStepAll s p = s ∨ selStepAll s p = (p.1, (p.2.length : Int)) := by
  rcases s with ⟨a, b⟩
  rcases p with ⟨f, l⟩
  simp only [selStepAll]
  split_ifs <;> simp_all [Prod.mk.injEq] <;> omega

/-- The result of the filtered fold is either the initial state or the
`(f, count)` pair of some passing map entry. -/
theorem selfold_attain (th : Int) (m : List (Int × List Nat)) (s : Int × Int) :
    m.foldl (selStep th) s = s ∨
      ∃ q ∈ m, th ≤ q.1 ∧ m.foldl (selStep th) s = (q.1, (q.2.length : Int)) := by
  induction m generalizing s with
  | nil => left; rfl
  | cons hd tl ih =>
    simp only [List.foldl_cons]
    rcases selStep_cases th s hd with h | ⟨hth, h⟩
    · rw [h]
      rcases ih s with h2 | ⟨q, hq, h3, h4⟩
      · left; exact h2
      · right; exact ⟨q, List.mem_cons_of_mem _ hq, h3, h4⟩
    · rw [h]
      rcases ih (hd.1, (hd.2.length : Int)) with h2 | ⟨q, hq, h3, h4⟩
      · right; exact ⟨hd, List.mem_cons_self _ _, hth, h2⟩
      · right; exact ⟨q, List.mem_cons_of_mem _ hq, h3, h4⟩

/-- The result of the fallback fold is either the initial state or the
`(f, count)` pair of some map entry. -/
theorem allfold_attain (m : List (Int × List Nat)) (s : Int × Int) :
    m.foldl selStepAll s = s ∨
      ∃ q ∈ m, m.foldl selStepAll s = (q.1, (q.2.length : Int)) := by
  induction m generalizing s with
  | nil => left; rfl
  | cons hd tl ih =>
    simp only [List.foldl_cons]
    rcases selStepAll_cases s hd with h | h
    · rw [h]
      rcases ih s with h2 | ⟨q, hq, h4⟩
      · left; exact h2
      · right; exact ⟨q, List.mem_cons_of_mem _ hq, h4⟩
    · rw [h]
      rcases ih (hd.1, (hd.2.length : Int)) with h2 | ⟨q, hq, h4⟩
      · right; exact ⟨hd, List.mem_cons_self _ _, h2⟩
      · right; exact ⟨q, List.mem_cons_of_mem _ hq, h4⟩

theorem selfold_fst_nonneg (th : Int) {m : List (Int × List Nat)}
    (hm : ∀ q ∈ m, 0 ≤ q.1) {s : Int × Int} (hs : 0 ≤ s.1) :
    0 ≤ (m.foldl (selStep th) s).1 := by
  induction m generalizing s with
  | nil => exact hs
  | cons hd tl ih =>
    simp only [List.foldl_cons]
    refine ih (fun q hq => hm q (List.mem_cons_of_mem _ hq)) ?_
    rcases selStep_cases th s hd with h | ⟨_, h⟩ <;> rw [h]
    · exact hs
    · exact hm hd (List.mem_cons_self _ _)

/-- If every frequency in the map is nonnegative and some entry reaches
the threshold, the filtered pass does not end with `bestFreq = -1`. -/
theorem selfold_ne_neg_one (th : Int) {m : List (Int × List Nat)}
    (hm : ∀ q ∈ m, 0 ≤ q.1) (hex : ∃ q ∈ m, th ≤ q.1) :
    (m.foldl (selStep th) (-1, -1)).1 ≠ -1 := by
  induction m with
  | nil => obtain ⟨q, hq, _⟩ := hex; cases hq
  | cons hd tl ih =>
    simp only [List.foldl_cons]
    by_cases hth : th ≤ hd.1
    · have hstep : selStep th (-1, -1) hd = (hd.1, (hd.2.length : Int)) := by
        rcases hd with ⟨f, l⟩
        simp only at hth
        simp only [selStep]
        split_ifs <;> simp_all [Prod.mk.injEq] <;> omega
      rw [hstep]
      have h0 : 0 ≤ hd.1 := hm hd (List.mem_cons_self _ _)
      have := selfold_fst_nonneg th (fun q hq => hm q (List.mem_cons_of_mem _ hq))
        (s := (hd.1, (hd.2.length : Int))) h0
      omega
    · have hstep : selStep th (-1, -1) hd = (-1, -1) := by
        rcases hd with ⟨f, l⟩
        simp only at hth
        simp only [selStep]
        split_ifs <;> simp_all [Prod.mk.injEq] <;> omega
      rw [hstep]
      refine ih (fun q hq => hm q (List.mem_cons_of_mem _ hq)) ?_
      obtain ⟨q, hq, hq2⟩ := hex
      rcases List.mem_cons.mp hq with h | h
      · subst h; omega
      · exact ⟨q, h, hq2⟩

/-- When the filtered pass found a candidate, `selectFrom` is exactly
the filtered pass. -/
theorem selectFrom_eq_filtered {th : Int} {m : List (Int × List Nat)}
    (h : (m.foldl (selStep th) (-1, -1)).1 ≠ -1) :
    selectFrom th m = m.foldl (selStep th) (-1, -1) := by
  rw [selectFrom, if_neg h]

/-- The state update common to both selection steps, on bare integers:
take `(f, c)` exactly when it lexicographically beats the state on
`(count, freq)`. -/
theorem selStepAll_eq_pick (s : Int × Int) (p : Int × List Nat) :
    selStepAll s p =
      if (p.2.length : Int) > s.2 ∨ ((p.2.length : Int) = s.2 ∧ p.1 > s.1)
      then (p.1, (p.2.length : Int)) else s := by
  rcases s with ⟨a, b⟩
  rcases p with ⟨f, l⟩
  simp only [selStepAll]
  split_ifs <;> simp_all [Prod.mk.injEq] <;> omega

theorem selStep_eq_pick (th : Int) (s : Int × Int) (p : Int × List Nat) :
    selStep th s p =
      if p.1 < th then s
      else if (p.2.length : Int) > s.2 ∨ ((p.2.length : Int) = s.2 ∧ p.1 > s.1)
      then (p.1, (p.2.length : Int)) else s := by
  rcases s with ⟨a, b⟩
  rcases p with ⟨f, l⟩
  simp only [selStep]
  split_ifs <;> simp_all [Prod.mk.injEq] <;> omega

theorem pick_comm (s : Int × Int) (f₁ c₁ f₂ c₂ : Int) :
    (if c₂ > (if c₁ > s.2 ∨ (c₁ = s.2 ∧ f₁ > s.1) then (f₁, c₁) else s).2 ∨
        (c₂ = (if c₁ > s.2 ∨ (c₁ = s.2 ∧ f₁ > s.1) then (f₁, c₁) else s).2 ∧
          f₂ > (if c₁ > s.2 ∨ (c₁ = s.2 ∧ f₁ > s.1) then (f₁, c₁) else s).1)
      then (f₂, c₂) else (if c₁ > s.2 ∨ (c₁ = s.2 ∧ f₁ > s.1) then (f₁, c₁) else s)) =
    (if c₁ > (if c₂ > s.2 ∨ (c₂ = s.2 ∧ f₂ > s.1) then (f₂, c₂) else s).2 ∨
        (c₁ = (if c₂ > s.2 ∨ (c₂ = s.2 ∧ f₂ > s.1) then (f₂, c₂) else s).2 ∧
          f₁ > (if c₂ > s.2 ∨ (c₂ = s.2 ∧ f₂ > s.1) then (f₂, c₂) else s).1)
      then (f₁, c₁) else (if c₂ > s.2 ∨ (c₂ = s.2 ∧ f₂ > s.1) then (f₂, c₂) else s)) := by
  rcases s with ⟨a, b⟩
  by_cases h₁ : c₁ > b ∨ (c₁ = b ∧ f₁ > a) <;>
    by_cases h₂ : c₂ > b ∨ (c₂ = b ∧ f₂ > a) <;>
      simp only [h₁, h₂, if_pos, if_neg, if_true, if_false] <;>
        split_ifs <;> simp_all [Prod.mk.injEq] <;> omega

/-- The filtered selection step is commutative: applying two map
entries in either order reaches the same state. -/
theorem selStep_comm (th : Int) (s : Int × Int) (p q : Int × List Nat) :
    selStep th (selStep th s p) q = selStep th (selStep th s q) p := by
  simp only [selStep_eq_pick]
  by_cases hp : p.1 < th <;> by_cases hq : q.1 < th <;>
    simp only [hp, hq, if_true, if_false] <;>
    first
      | rfl
      | exact pick_comm s p.1 (p.2.length : Int) q.1 (q.2.length : Int)

/-- The fallback selection step is commutative. -/
theorem selStepAll_comm (s : Int × Int) (p q : Int × List Nat) :
    selStepAll (selStepAll s p) q = selStepAll (selStepAll s q) p := by
  rw [selStepAll_eq_pick s p, selStepAll_eq_pick _ q, selStepAll_eq_pick s q,
    selStepAll_eq_pick _ p]
  exact pick_comm s p.1 (p.2.length : Int) q.1 (q.2.length : Int)

/-! ### Permutation invariance of the selection folds -/

theorem selfold_perm (th : Int) {m m' : List (Int × List Nat)} (hp : m.Perm m')
    (s : Int × Int) : m.foldl (selStep th) s = m'.foldl (selStep th) s :=
  hp.foldl_eq' (fun x _ y _ z => selStep_comm th z x y) s

theorem allfold_perm {m m' : List (Int × List Nat)} (hp : m.Perm m')
    (s : Int × Int) : m.foldl selStepAll s = m'.foldl selStepAll s :=
  hp.foldl_eq' (fun x _ y _ z => selStepAll_comm z x y) s

theorem selectFrom_perm (th : Int) {m m' : List (Int × List Nat)}
    (hp : m.Perm m') : selectFrom th m = selectFrom th m' := by
  rw [selectFrom, selectFrom, selfold_perm th hp, allfold_perm hp]

/-! ### Counting laws of the frequency tables -/

/-- Sum of the recorded counts of an inner (content -> count) table. -/
def vals (inner : List (String × Int)) : Int := (inner.map Prod.snd).sum

/-- Sum of the recorded counts of a column. -/
def sumAt (cc : List (Nat × List (String × Int))) (i : Nat) : Int :=
  vals ((mapGet cc i).getD [])

theorem inner_bump_get (inner : List (String × Int)) (t s : String) :
    (mapGet (mapSet inner t (fun oc => oc.getD 0 + 1)) s).getD 0 =
      (mapGet inner s).getD 0 + if t = s then 1 else 0 := by
  by_cases h : t = s
  · subst h
    rw [mapGet_mapSet_self]
    simp
  · rw [mapGet_mapSet_ne _ _ _ _ (Ne.symm h)]
    simp [h]

theorem vals_bump (inner : List (String × Int)) (t : String) :
    vals (mapSet inner t (fun oc => oc.getD 0 + 1)) = vals inner + 1 := by
  induction inner with
  | nil => simp [vals, mapSet]
  | cons hd tl ih =>
    obtain ⟨s, c⟩ := hd
    by_cases h : t = s
    · subst h
      simp only [mapSet, beq_self_eq_true, if_pos]
      simp [vals]
      omega
    · have hbeq : (t == s) = false := beq_false_of_ne h
      simp only [mapSet, hbeq, Bool.false_eq_true, if_false]
      simp only [vals, List.map_cons, List.sum_cons] at ih ⊢
      omega

theorem colCount_bumpStep (cc : List (Nat × List (String × Int)))
    (q : Nat × String) (i : Nat) (s : String) :
    colCount (mapSet cc q.1 (fun oi => mapSet (oi.getD []) q.2 (fun oc => oc.getD 0 + 1))) i s =
      colCount cc i s + if q.1 = i ∧ q.2 = s then 1 else 0 := by
  by_cases h : q.1 = i
  · subst h
    rw [colCount, mapGet_mapSet_self]
    simp only [Option.getD_some]
    rw [colCount, inner_bump_get]
    by_cases h2 : q.2 = s <;> simp [h2]
  · rw [colCount, mapGet_mapSet_ne _ _ _ _ (Ne.symm h), colCount]
    simp [h]

theorem sumAt_bumpStep (cc : List (Nat × List (String × Int)))
    (q : Nat × String) (i : Nat) :
    sumAt (mapSet cc q.1 (fun oi => mapSet (oi.getD []) q.2 (fun oc => oc.getD 0 + 1))) i =
      sumAt cc i + if q.1 = i then 1 else 0 := by
  by_cases h : q.1 = i
  · subst h
    rw [sumAt, mapGet_mapSet_self]
    simp only [Option.getD_some]
    rw [sumAt, vals_bump]
    simp
  · rw [sumAt, mapGet_mapSet_ne _ _ _ _ (Ne.symm h), sumAt]
    simp [h]

theorem colCount_bumpCounts (cc : List (Nat × List (String × Int)))
    (ind : List (Nat × String)) (i : Nat) (s : String) :
    colCount (bumpCounts cc ind) i s =
      colCount cc i s + ((ind.filter (fun q => q.1 == i && q.2 == s)).length : Int) := by
  induction ind generalizing cc with
  | nil => simp [bumpCounts]
  | cons hd tl ih =>
    obtain ⟨q1, q2⟩ := hd
    rw [bumpCounts, List.foldl_cons, ← bumpCounts, ih, colCount_bumpStep]
    rw [List.filter_cons]
    by_cases h : q1 = i ∧ q2 = s
    · obtain ⟨h1, h2⟩ := h
      subst h1
      subst h2
      simp only [beq_self_eq_true, Bool.and_self, if_true, and_self, List.length_cons]
      push_cast
      omega
    · have hb : (q1 == i && q2 == s) = false := by
        rcases not_and_or.mp h with h2 | h2 <;> simp [beq_false_of_ne h2]
      simp only [hb, Bool.false_eq_true, if_false, h]
      omega

theorem sumAt_bumpCounts (cc : List (Nat × List (String × Int)))
    (ind : List (Nat × String)) (i : Nat) :
    sumAt (bumpCounts cc ind) i =
      sumAt cc i + ((ind.filter (fun q => q.1 == i)).length : Int) := by
  induction ind generalizing cc with
  | nil => simp [bumpCounts]
  | cons hd tl ih =>
    obtain ⟨q1, q2⟩ := hd
    rw [bumpCounts, List.foldl_cons, ← bumpCounts, ih, sumAt_bumpStep]
    rw [List.filter_cons]
    by_cases h : q1 = i
    · subst h
      simp only [beq_self_eq_true, if_true, List.length_cons]
      push_cast
      omega
    · have hb : (q1 == i) = false := beq_false_of_ne h
      simp only [hb, Bool.false_eq_true, if_false, h]
      omega

theorem ccKey_bumpCounts (cc : List (Nat × List (String × Int)))
    (ind : List (Nat × String)) (i : Nat) :
    mapGet (bumpCounts cc ind) i = none ↔
      mapGet cc i = none ∧ ∀ q ∈ ind, q.1 ≠ i := by
  induction ind generalizing cc with
  | nil => simp [bumpCounts]
  | cons hd tl ih =>
    rw [bumpCounts, List.foldl_cons, ← bumpCounts, ih, mapGet_mapSet_eq_none_iff]
    constructor
    · rintro ⟨⟨h1, h2⟩, h3⟩
      exact ⟨h1, by
        intro q hq
        rcases List.mem_cons.mp hq with h | h
        · subst h; exact fun hc => h2 hc.symm
        · exact h3 q h⟩
    · rintro ⟨h1, h2⟩
      exact ⟨⟨h1, fun hc => h2 hd (List.mem_cons_self _ _) hc.symm⟩,
        fun q hq => h2 q (List.mem_cons_of_mem _ hq)⟩

/-- Inner tables produced by the counting loop keep duplicate-free
content keys. -/
theorem innerNodup_bumpCounts (cc : List (Nat × List (String × Int)))
    (ind : List (Nat × String))
    (h : ∀ j inner, mapGet cc j = some inner → (keysOf inner).Nodup) :
    ∀ j inner, mapGet (bumpCounts cc ind) j = some inner → (keysOf inner).Nodup := by
  induction ind generalizing cc with
  | nil => exact h
  | cons hd tl ih =>
    rw [bumpCounts, List.foldl_cons, ← bumpCounts]
    refine ih _ ?_
    intro j inner hj
    by_cases hkey : hd.1 = j
    · subst hkey
      rw [mapGet_mapSet_self] at hj
      injection hj with hj
      subst hj
      refine keysOf_nodup_mapSet _ _ _ ?_
      cases hold : mapGet cc hd.1 with
      | none => simp [keysOf]
      | some inner0 => simpa using h hd.1 inner0 hold
    · rw [mapGet_mapSet_ne _ _ _ _ (Ne.symm hkey)] at hj
      exact h j inner hj

/-! ### Characterisation of Vectorize -/

/-- Member logs of the group at a length key (empty when absent). -/
def logsAt (groups : List (Nat × LogGroup)) (len : Nat) : List LogEntry :=
  ((mapGet groups len).getD (emptyGroup len)).Logs

/-- Column table of the group at a length key (empty when absent). -/
def ccAt (groups : List (Nat × LogGroup)) (len : Nat) :
    List (Nat × List (String × Int)) :=
  ((mapGet groups len).getD (emptyGroup len)).ColumnCounts

theorem logsAt_vectorizeStep (lp : LogParser) (acc : List (Nat × LogGroup))
    (p : Nat × String) (len : Nat) :
    logsAt (vectorizeStep lp acc p) len =
      if tokLen lp p.2 = len then logsAt acc len ++ [rawEntry lp p]
      else logsAt acc len := by
  by_cases h : tokLen lp p.2 = len
  · subst h
    rw [logsAt, vectorizeStep, mapGet_mapSet_self, if_pos rfl]
    cases hacc : mapGet acc (tokLen lp p.2) with
    | none => simp [logsAt, hacc, emptyGroup]
    | some g => simp [logsAt, hacc]
  · rw [logsAt, vectorizeStep, mapGet_mapSet_ne _ _ _ _ (Ne.symm h), if_neg h, logsAt]

theorem ccAt_vectorizeStep (lp : LogParser) (acc : List (Nat × LogGroup))
    (p : Nat × String) (len : Nat) :
    ccAt (vectorizeStep lp acc p) len =
      if tokLen lp p.2 = len then
        bumpCounts (ccAt acc len) (fields (lp.Preprocess p.2)).enum
      else ccAt acc len := by
  by_cases h : tokLen lp p.2 = len
  · subst h
    rw [ccAt, vectorizeStep, mapGet_mapSet_self, if_pos rfl]
    cases hacc : mapGet acc (tokLen lp p.2) with
    | none => simp [ccAt, hacc, emptyGroup]
    | some g => simp [ccAt, hacc]
  · rw [ccAt, vectorizeStep, mapGet_mapSet_ne _ _ _ _ (Ne.symm h), if_neg h, ccAt]

theorem mapGet_vectorizeStep_none (lp : LogParser) (acc : List (Nat × LogGroup))
    (p : Nat × String) (len : Nat) :
    mapGet (vectorizeStep lp acc p) len = none ↔
      mapGet acc len = none ∧ tokLen lp p.2 ≠ len := by
  rw [vectorizeStep, mapGet_mapSet_eq_none_iff]
  exact and_congr_right (fun _ => ⟨fun h => fun hc => h hc.symm, fun h => fun hc => h hc.symm⟩)

theorem enumFrom_filter_pair_len (ts : List String) (k i : Nat) (s : String) :
    ((List.enumFrom k ts).filter (fun q => q.1 == i && q.2 == s)).length =
      if k ≤ i ∧ ts.get? (i - k) = some s then 1 else 0 := by
  induction ts generalizing k with
  | nil =>
    rw [if_neg]
    · simp
    · rintro ⟨-, hget⟩
      simp at hget
  | cons hd tl ih =>
    rw [List.enumFrom_cons, List.filter_cons]
    by_cases hk : k = i
    · subst hk
      have htl : List.filter (fun q => q.1 == k && q.2 == s)
          (List.enumFrom (k + 1) tl) = [] := by
        apply List.filter_eq_nil_iff.mpr
        intro q hq hc
        have := List.mem_enumFrom hq
        simp only [Bool.and_eq_true, beq_iff_eq] at hc
        omega
      by_cases hs : hd = s
      · subst hs
        simp only [beq_self_eq_true, Bool.and_self, if_true, htl, List.length_cons,
          List.length_nil]
        rw [if_pos ⟨le_refl k, by rw [Nat.sub_self, List.get?_cons_zero]⟩]
      · have hc : (k == k && hd == s) = false := by
          simp [beq_false_of_ne hs]
        simp only [hc, Bool.false_eq_true, if_false, htl, List.length_nil]
        rw [if_neg]
        rintro ⟨-, hget⟩
        rw [Nat.sub_self, List.get?_cons_zero] at hget
        injection hget with hget
        exact hs hget
    · have hc : (k == i && hd == s) = false := by
        simp [beq_false_of_ne hk]
      simp only [hc, Bool.false_eq_true, if_false]
      rw [ih (k + 1)]
      by_cases hki : k ≤ i
      · have h2 : k + 1 ≤ i := by omega
        have hg : (hd :: tl).get? (i - k) = tl.get? (i - (k + 1)) := by
          have he : i - k = (i - (k + 1)) + 1 := by omega
          rw [he, List.get?_cons_succ]
        have hiff : (k + 1 ≤ i ∧ tl.get? (i - (k + 1)) = some s) ↔
            (k ≤ i ∧ (hd :: tl).get? (i - k) = some s) := by
          rw [hg]
          exact ⟨fun ⟨_, b⟩ => ⟨hki, b⟩, fun ⟨_, b⟩ => ⟨h2, b⟩⟩
        rw [if_congr hiff rfl rfl]
      · rw [if_neg (fun hcon => hki (by omega)), if_neg (fun hcon => hki hcon.1)]

theorem enum_filter_pair_len (ts : List String) (i : Nat) (s : String) :
    (ts.enum.filter (fun q => q.1 == i && q.2 == s)).length =
      if ts.get? i = some s then 1 else 0 := by
  rw [List.enum, enumFrom_filter_pair_len]
  simp

theorem enumFrom_filter_fst_len (ts : List String) (k i : Nat) :
    ((List.enumFrom k ts).filter (fun q => q.1 == i)).length =
      if k ≤ i ∧ i < k + ts.length then 1 else 0 := by
  induction ts generalizing k with
  | nil =>
    simp only [List.enumFrom_nil, List.filter_nil, List.length_nil]
    rw [if_neg (by omega)]
  | cons hd tl ih =>
    rw [List.enumFrom_cons, List.filter_cons]
    by_cases h : k = i
    · subst h
      have htl : List.filter (fun q => q.1 == k) (List.enumFrom (k + 1) tl) = [] := by
        apply List.filter_eq_nil_iff.mpr
        intro q hq hc
        have := List.mem_enumFrom hq
        simp only [beq_iff_eq] at hc
        omega
      simp only [beq_self_eq_true, if_true, htl, List.length_cons, List.length_nil]
      rw [if_pos ⟨le_refl k, by simp⟩]
    · have hb : (k == i) = false := beq_false_of_ne h
      simp only [hb, Bool.false_eq_true, if_false]
      rw [ih (k + 1)]
      have hiff : (k + 1 ≤ i ∧ i < k + 1 + tl.length) ↔
          (k ≤ i ∧ i < k + (hd :: tl).length) := by
        simp only [List.length_cons]
        omega
      rw [if_congr hiff rfl rfl]

theorem enum_filter_fst_len (ts : List String) (i : Nat) :
    (ts.enum.filter (fun q => q.1 == i)).length =
      if i < ts.length then 1 else 0 := by
  rw [List.enum, enumFrom_filter_fst_len]
  simp

/-- No enum pair carries index `i` exactly when `i` is out of range. -/
theorem enum_fst_ne_iff (ts : List String) (i : Nat) :
    (∀ q ∈ ts.enum, q.1 ≠ i) ↔ ts.length ≤ i := by
  constructor
  · intro h
    by_contra hc
    push_neg at hc
    exact h (i, ts.get ⟨i, hc⟩)
      (List.mem_enum_iff_get?.mpr (by simp [List.get?_eq_get hc])) rfl
  · intro h q hq hc
    have h2 := List.mem_enum_iff_get?.mp hq
    rw [hc] at h2
    obtain ⟨hlt, -⟩ := List.get?_eq_some.mp h2
    omega

theorem logsAt_vfold (lp : LogParser) (l : List (Nat × String))
    (acc : List (Nat × LogGroup)) (len : Nat) :
    logsAt (l.foldl (vectorizeStep lp) acc) len =
      logsAt acc len ++ (l.filter (fun p => tokLen lp p.2 == len)).map (rawEntry lp) := by
  induction l generalizing acc with
  | nil => simp
  | cons hd tl ih =>
    rw [List.foldl_cons, ih, logsAt_vectorizeStep, List.filter_cons]
    by_cases h : tokLen lp hd.2 = len
    · have hb : (tokLen lp hd.2 == len) = true := beq_iff_eq.mpr h
      simp [h, hb]
    · have hb : (tokLen lp hd.2 == len) = false := beq_false_of_ne h
      simp [h, hb]

theorem colCount_vfold (lp : LogParser) (l : List (Nat × String))
    (acc : List (Nat × LogGroup)) (len : Nat) (i : Nat) (s : String) :
    colCount (ccAt (l.foldl (vectorizeStep lp) acc) len) i s =
      colCount (ccAt acc len) i s +
        ((l.filter (fun p => tokLen lp p.2 == len &&
          (fields (lp.Preprocess p.2)).get? i == some s)).length : Int) := by
  induction l generalizing acc with
  | nil => simp
  | cons hd tl ih =>
    rw [List.foldl_cons, ih, ccAt_vectorizeStep, List.filter_cons]
    by_cases h : tokLen lp hd.2 = len
    · have hb : (tokLen lp hd.2 == len) = true := beq_iff_eq.mpr h
      rw [if_pos h, colCount_bumpCounts, enum_filter_pair_len]
      by_cases h2 : (fields (lp.Preprocess hd.2)).get? i = some s
      · have hb2 : ((fields (lp.Preprocess hd.2)).get? i == some s) = true :=
          beq_iff_eq.mpr h2
        simp only [hb, hb2, Bool.and_self, if_true, if_pos h2, List.length_cons]
        push_cast
        omega
      · have hb2 : ((fields (lp.Preprocess hd.2)).get? i == some s) = false :=
          beq_false_of_ne h2
        simp only [hb, hb2, Bool.and_false, Bool.false_eq_true, if_false, if_neg h2]
        simp
    · have hb : (tokLen lp hd.2 == len) = false := beq_false_of_ne h
      simp only [if_neg h, hb, Bool.false_and, Bool.false_eq_true, if_false]

theorem sumAt_vfold (lp : LogParser) (l : List (Nat × String))
    (acc : List (Nat × LogGroup)) (len : Nat) (i : Nat) :
    sumAt (ccAt (l.foldl (vectorizeStep lp) acc) len) i =
      sumAt (ccAt acc len) i +
        if i < len then ((l.filter (fun p => tokLen lp p.2 == len)).length : Int) else 0 := by
  induction l generalizing acc with
  | nil => simp
  | cons hd tl ih =>
    rw [List.foldl_cons, ih, ccAt_vectorizeStep, List.filter_cons]
    by_cases h : tokLen lp hd.2 = len
    · have hb : (tokLen lp hd.2 == len) = true := beq_iff_eq.mpr h
      rw [if_pos h, sumAt_bumpCounts, enum_filter_fst_len]
      have hlen : (fields (lp.Preprocess hd.2)).length = len := h
      rw [hlen]
      by_cases h2 : i < len
      · simp only [hb, if_true, if_pos h2, List.length_cons]
        push_cast
        omega
      · simp only [hb, if_true, if_neg h2]
        simp
    · have hb : (tokLen lp hd.2 == len) = false := beq_false_of_ne h
      simp only [if_neg h, hb, Bool.false_eq_true, if_false]

theorem ccKey_vfold (lp : LogParser) (l : List (Nat × String))
    (acc : List (Nat × LogGroup)) (len : Nat) (i : Nat) :
    mapGet (ccAt (l.foldl (vectorizeStep lp) acc) len) i = none ↔
      mapGet (ccAt acc len) i = none ∧
        (i < len → ∀ p ∈ l, tokLen lp p.2 ≠ len) := by
  induction l generalizing acc with
  | nil => simp
  | cons hd tl ih =>
    rw [List.foldl_cons, ih, ccAt_vectorizeStep]
    by_cases h : tokLen lp hd.2 = len
    · rw [if_pos h, ccKey_bumpCounts]
      have hrange : (∀ q ∈ (fields (lp.Preprocess hd.2)).enum, q.1 ≠ i) ↔ len ≤ i := by
        rw [enum_fst_ne_iff]
        exact (show (fields (lp.Preprocess hd.2)).length = len from h) ▸ Iff.rfl
      rw [hrange]
      constructor
      · rintro ⟨⟨h1, h2⟩, h3⟩
        refine ⟨h1, fun hi => absurd h2 (by omega)⟩
      · rintro ⟨h1, h2⟩
        by_cases hi : i < len
        · exact absurd h (h2 hi hd (List.mem_cons_self _ _))
        · exact ⟨⟨h1, by omega⟩, fun hi' _ => absurd hi' hi⟩
    · rw [if_neg h]
      constructor
      · rintro ⟨h1, h2⟩
        refine ⟨h1, fun hi p hp => ?_⟩
        rcases List.mem_cons.mp hp with hc | hc
        · subst hc; exact h
        · exact h2 hi p hc
      · rintro ⟨h1, h2⟩
        exact ⟨h1, fun hi p hp => h2 hi p (List.mem_cons_of_mem _ hp)⟩

theorem mapGet_vfold_none (lp : LogParser) (l : List (Nat × String))
    (acc : List (Nat × LogGroup)) (len : Nat) :
    mapGet (l.foldl (vectorizeStep lp) acc) len = none ↔
      mapGet acc len = none ∧ ∀ p ∈ l, tokLen lp p.2 ≠ len := by
  induction l generalizing acc with
  | nil => simp
  | cons hd tl ih =>
    rw [List.foldl_cons, ih, mapGet_vectorizeStep_none]
    constructor
    · rintro ⟨⟨h1, h2⟩, h3⟩
      exact ⟨h1, fun p hp => (List.mem_cons.mp hp).elim (fun hc => hc ▸ h2) (h3 p)⟩
    · rintro ⟨h1, h2⟩
      exact ⟨⟨h1, h2 hd (List.mem_cons_self _ _)⟩,
        fun p hp => h2 p (List.mem_cons_of_mem _ hp)⟩

theorem mapGet_mapVals {α β γ : Type} [BEq α] (m : List (α × β)) (f : β → γ)
    (k : α) :
    mapGet (m.map (fun p => (p.1, f p.2))) k = (mapGet m k).map f := by
  induction m with
  | nil => rfl
  | cons hd tl ih =>
    obtain ⟨k', v⟩ := hd
    cases hb : k == k' <;> simp [mapGet, List.lookup_cons, hb] <;>
      simpa [mapGet] using ih

theorem mapGet_Vectorize (lp : LogParser) (raw : List String) (len : Nat) :
    mapGet (lp.Vectorize raw) len =
      (mapGet ((raw.enum).foldl (vectorizeStep lp) []) len).map setFrequencies := by
  rw [LogParser.Vectorize]
  exact mapGet_mapVals _ _ _

theorem logsAt_of_some {groups : List (Nat × LogGroup)} {len : Nat} {g : LogGroup}
    (h : mapGet groups len = some g) : logsAt groups len = g.Logs := by
  rw [logsAt, h]
  rfl

theorem ccAt_of_some {groups : List (Nat × LogGroup)} {len : Nat} {g : LogGroup}
    (h : mapGet groups len = some g) : ccAt groups len = g.ColumnCounts := by
  rw [ccAt, h]
  rfl

theorem setFrequencies_CC (g : LogGroup) :
    (setFrequencies g).ColumnCounts = g.ColumnCounts := rfl

/-- Unpack a group of `Vectorize`: the underlying first-pass group, its
member list as the filtered input lines, and the shared column table. -/
theorem Vectorize_group {lp : LogParser} {raw : List String} {len : Nat}
    {g : LogGroup} (h : mapGet (lp.Vectorize raw) len = some g) :
    ∃ g0, mapGet ((raw.enum).foldl (vectorizeStep lp) []) len = some g0 ∧
      g = setFrequencies g0 ∧
      g0.Logs = (raw.enum.filter (fun p => tokLen lp p.2 == len)).map (rawEntry lp) ∧
      g.ColumnCounts = ccAt ((raw.enum).foldl (vectorizeStep lp) []) len := by
  rw [mapGet_Vectorize] at h
  obtain ⟨g0, hg0, hset⟩ := Option.map_eq_some'.mp h
  refine ⟨g0, hg0, hset.symm, ?_, ?_⟩
  · have := logsAt_vfold lp raw.enum [] len
    rw [logsAt_of_some hg0] at this
    simpa [logsAt, mapGet, List.lookup, emptyGroup] using this
  · rw [ccAt_of_some hg0, ← hset, setFrequencies_CC]

/-- The column-count table of a `Vectorize` group counts, for `(i, s)`,
exactly the input lines of this length whose token at column `i` is
`s`. -/
theorem Vectorize_colCount {lp : LogParser} {raw : List String} {len : Nat}
    {g : LogGroup} (h : mapGet (lp.Vectorize raw) len = some g) (i : Nat) (s : String) :
    colCount g.ColumnCounts i s =
      ((raw.enum.filter (fun p => tokLen lp p.2 == len &&
        (fields (lp.Preprocess p.2)).get? i == some s)).length : Int) := by
  obtain ⟨g0, hg0, hset, hlogs, hcc⟩ := Vectorize_group h
  rw [hcc]
  have := colCount_vfold lp raw.enum [] len i s
  rw [this]
  simp [ccAt, mapGet, List.lookup, emptyGroup, colCount]

/-- Member lists of `Vectorize` groups, with token frequencies
assigned. -/
theorem Vectorize_logs {lp : LogParser} {raw : List String} {len : Nat}
    {g : LogGroup} (h : mapGet (lp.Vectorize raw) len = some g) :
    g.Logs = ((raw.enum.filter (fun p => tokLen lp p.2 == len)).map (rawEntry lp)).map
      (assignFreqsEntry g.ColumnCounts) := by
  obtain ⟨g0, hg0, hset, hlogs, hcc⟩ := Vectorize_group h
  rw [hset, setFrequencies, ← hlogs]

/-- Destructor for one member log of a `Vectorize` group: it comes from
an input line of matching token count, its tokens are that line's
fields, and each token carries the group-level count as frequency. -/
theorem Vectorize_mem_log {lp : LogParser} {raw : List String} {len : Nat}
    {g : LogGroup} (h : mapGet (lp.Vectorize raw) len = some g)
    {log : LogEntry} (hlog : log ∈ g.Logs) :
    ∃ p ∈ raw.enum, tokLen lp p.2 = len ∧
      log = { LineID := p.1,
              Tokens := (fields (lp.Preprocess p.2)).enum.map (fun q =>
                { Content := q.2, Frequency := colCount g.ColumnCounts q.1 q.2 }) } := by
  rw [Vectorize_logs h] at hlog
  obtain ⟨log0, hlog0, heq⟩ := List.mem_map.mp hlog
  obtain ⟨p, hp, hraw⟩ := List.mem_map.mp hlog0
  have hpf := List.mem_filter.mp hp
  refine ⟨p, hpf.1, beq_iff_eq.mp hpf.2, ?_⟩
  rw [← heq, ← hraw]
  simp only [assignFreqsEntry, rawEntry]
  rw [List.enum_map, List.map_map]
  rfl

/-- Every token frequency written by `Vectorize` is at least 1: the
line itself is counted. -/
theorem Vectorize_freq_pos {lp : LogParser} {raw : List String} {len : Nat}
    {g : LogGroup} (h : mapGet (lp.Vectorize raw) len = some g)
    {log : LogEntry} (hlog : log ∈ g.Logs) :
    ∀ tok ∈ log.Tokens, 1 ≤ tok.Frequency := by
  obtain ⟨p, hp, hlen, hent⟩ := Vectorize_mem_log h hlog
  intro tok htok
  rw [hent] at htok
  obtain ⟨q, hq, htok⟩ := List.mem_map.mp htok
  subst htok
  simp only
  rw [Vectorize_colCount h]
  have hmem : p ∈ raw.enum.filter (fun p' => tokLen lp p'.2 == len &&
      (fields (lp.Preprocess p'.2)).get? q.1 == some q.2) := by
    refine List.mem_filter.mpr ⟨hp, ?_⟩
    have hget := List.mem_enum_iff_get?.mp hq
    rw [List.get?_eq_getElem?] at hget
    simp [hlen, hget]
  have := List.length_pos.mpr (List.ne_nil_of_mem hmem)
  omega

/-! ### Characterisation of GroupByLCP -/

theorem lcpStep_get_eq (w : Rat) (acc : List (String × InitialGroup))
    (log : LogEntry) :
    mapGet (lcpStep w acc log) (lineSignature w log) =
      some (match mapGet acc (lineSignature w log) with
        | some t => { t with Logs := t.Logs ++ [log] }
        | none => { Signature := lineSignature w log, Logs := [log],
                    RootFrequency := (lineBest w log).1 }) := by
  rw [lcpStep, mapGet_mapSet_self]
  cases mapGet acc (lineSignature w log) <;> rfl

theorem lcpStep_get_ne (w : Rat) (acc : List (String × InitialGroup))
    (log : LogEntry) (sig : String) (h : sig ≠ lineSignature w log) :
    mapGet (lcpStep w acc log) sig = mapGet acc sig :=
  mapGet_mapSet_ne _ _ _ _ h

theorem lcpFold_none (w : Rat) (l : List LogEntry)
    (acc : List (String × InitialGroup)) (sig : String) :
    mapGet (l.foldl (lcpStep w) acc) sig = none ↔
      mapGet acc sig = none ∧
        l.filter (fun log => lineSignature w log == sig) = [] := by
  induction l generalizing acc with
  | nil => simp
  | cons hd tl ih =>
    rw [List.foldl_cons, ih, List.filter_cons]
    by_cases h : lineSignature w hd = sig
    · subst h
      rw [lcpStep_get_eq]
      simp
    · have hb : (lineSignature w hd == sig) = false := beq_false_of_ne h
      rw [lcpStep_get_ne _ _ _ _ (fun hc => h hc.symm)]
      simp [hb]

theorem lcpFold_some (w : Rat) (l : List LogEntry)
    (acc : List (String × InitialGroup)) (sig : String) (t : InitialGroup)
    (h : mapGet acc sig = some t) :
    mapGet (l.foldl (lcpStep w) acc) sig =
      some { t with Logs := t.Logs ++ l.filter (fun log => lineSignature w log == sig) } := by
  induction l generalizing acc t with
  | nil =>
    rw [List.foldl_nil, List.filter_nil, List.append_nil, h]
  | cons hd tl ih =>
    rw [List.foldl_cons, List.filter_cons]
    by_cases hsig : lineSignature w hd = sig
    · subst hsig
      have hstep : mapGet (lcpStep w acc hd) (lineSignature w hd) =
          some { t with Logs := t.Logs ++ [hd] } := by
        rw [lcpStep_get_eq, h]
      rw [ih _ _ hstep]
      have hb : (lineSignature w hd == lineSignature w hd) = true := by simp
      rw [hb]
      simp [List.append_assoc]
    · have hb : (lineSignature w hd == sig) = false := beq_false_of_ne hsig
      rw [hb]
      simp only [Bool.false_eq_true, if_false]
      exact ih _ _ (by rw [lcpStep_get_ne _ _ _ _ (fun hc => hsig hc.symm)]; exact h)

theorem lcpFold_new (w : Rat) (l : List LogEntry)
    (acc : List (String × InitialGroup)) (sig : String) (log0 : LogEntry)
    (rest : List LogEntry) (h : mapGet acc sig = none)
    (hf : l.filter (fun log => lineSignature w log == sig) = log0 :: rest) :
    mapGet (l.foldl (lcpStep w) acc) sig =
      some { Signature := sig, Logs := log0 :: rest,
             RootFrequency := (lineBest w log0).1 } := by
  induction l generalizing acc log0 rest with
  | nil => simp at hf
  | cons hd tl ih =>
    rw [List.filter_cons] at hf
    rw [List.foldl_cons]
    by_cases hsig : lineSignature w hd = sig
    · have hb : (lineSignature w hd == sig) = true := beq_iff_eq.mpr hsig
      rw [hb] at hf
      simp only [if_true] at hf
      injection hf with hf1 hf2
      subst hf1
      have hstep : mapGet (lcpStep w acc hd) sig =
          some { Signature := sig, Logs := [hd],
                 RootFrequency := (lineBest w hd).1 } := by
        have h2 := lcpStep_get_eq w acc hd
        rw [hsig] at h2
        rw [h2, h]
      rw [lcpFold_some w tl _ sig _ hstep, hf2]
      rfl
    · have hb : (lineSignature w hd == sig) = false := beq_false_of_ne hsig
      rw [hb] at hf
      simp only [Bool.false_eq_true, if_false] at hf
      exact ih (lcpStep w acc hd) log0 rest
        (by rw [lcpStep_get_ne _ _ _ _ (fun hc => hsig hc.symm)]; exact h) hf

theorem GroupByLCP_lookup_none (lg : LogGroup) (w : Rat) (sig : String) :
    mapGet (lg.GroupByLCP w) sig = none ↔
      lg.Logs.filter (fun log => lineSignature w log == sig) = [] := by
  rw [LogGroup.GroupByLCP, lcpFold_none]
  simp [mapGet, List.lookup]

theorem GroupByLCP_lookup_some {lg : LogGroup} {w : Rat} {sig : String}
    {t : InitialGroup} :
    mapGet (lg.GroupByLCP w) sig = some t ↔
      ∃ log0 rest, lg.Logs.filter (fun log => lineSignature w log == sig) = log0 :: rest ∧
        t = { Signature := sig, Logs := log0 :: rest,
              RootFrequency := (lineBest w log0).1 } := by
  constructor
  · intro h
    cases hf : lg.Logs.filter (fun log => lineSignature w log == sig) with
    | nil =>
      rw [(GroupByLCP_lookup_none lg w sig).mpr hf] at h
      cases h
    | cons log0 rest =>
      have := lcpFold_new w lg.Logs [] sig log0 rest rfl hf
      rw [LogGroup.GroupByLCP] at h
      rw [this] at h
      injection h with h
      exact ⟨log0, rest, rfl, h.symm⟩
  · rintro ⟨log0, rest, hf, rfl⟩
    rw [LogGroup.GroupByLCP]
    exact lcpFold_new w lg.Logs [] sig log0 rest rfl hf

theorem innerNodup_vfold (lp : LogParser) (l : List (Nat × String))
    (acc : List (Nat × LogGroup)) (len : Nat)
    (h : ∀ j inner, mapGet (ccAt acc len) j = some inner → (keysOf inner).Nodup) :
    ∀ j inner, mapGet (ccAt (l.foldl (vectorizeStep lp) acc) len) j = some inner →
      (keysOf inner).Nodup := by
  induction l generalizing acc with
  | nil => exact h
  | cons hd tl ih =>
    rw [List.foldl_cons]
    refine ih _ ?_
    rw [ccAt_vectorizeStep]
    by_cases hm : tokLen lp hd.2 = len
    · rw [if_pos hm]
      exact innerNodup_bumpCounts _ _ h
    · rw [if_neg hm]
      exact h

/-- Token count of a member equals the group key. -/
theorem Vectorize_log_length {lp : LogParser} {raw : List String} {len : Nat}
    {g : LogGroup} (hg : mapGet (lp.Vectorize raw) len = some g)
    {log : LogEntry} (hlog : log ∈ g.Logs) : log.Tokens.length = len := by
  obtain ⟨p, hp, hlen, hent⟩ := Vectorize_mem_log hg hlog
  rw [hent]
  simp only [List.length_map, List.enum_length]
  exact hlen

/-- Contents of a member's tokens are the fields of its masked line. -/
theorem Vectorize_log_contents {lp : LogParser} {raw : List String} {len : Nat}
    {g : LogGroup} (hg : mapGet (lp.Vectorize raw) len = some g)
    {log : LogEntry} (hlog : log ∈ g.Logs) :
    ∃ p ∈ raw.enum, tokLen lp p.2 = len ∧
      log.Tokens.map LogToken.Content = fields (lp.Preprocess p.2) := by
  obtain ⟨p, hp, hlen, hent⟩ := Vectorize_mem_log hg hlog
  refine ⟨p, hp, hlen, ?_⟩
  rw [hent]
  simp only [List.map_map]
  exact List.enum_map_snd (fields (lp.Preprocess p.2))

/-- Every key of `freqToIndices` is the frequency of some token. -/
theorem mem_buildFreqToIndices_freq {toks : List LogToken} {q : Int × List Nat}
    (hq : q ∈ buildFreqToIndices toks) : ∃ tok ∈ toks, tok.Frequency = q.1 := by
  by_contra hc
  push_neg at hc
  have hnone : mapGet (buildFreqToIndices toks) q.1 = none :=
    (mapGet_buildFreqToIndices_eq_none_iff _ _).mpr hc
  have hsome := mapGet_eq_some_of_mem_nodup
    (keysOf_buildFreqToIndices_nodup toks) (m := buildFreqToIndices toks)
    (k := q.1) (v := q.2) hq
  rw [hsome] at hnone
  cases hnone

/-- A zero-token line computes the empty signature, `bestFreq = -1`,
and the empty root set. -/
theorem line_empty (w : Rat) (log : LogEntry) (h : log.Tokens = []) :
    lineSignature w log = "" ∧ lineBest w log = (-1, -1) ∧ lineRoot w log = [] := by
  have hb : buildFreqToIndices log.Tokens = [] := by rw [h]; rfl
  refine ⟨?_, ?_, ?_⟩
  · rw [lineSignature, lineRoot, lineBest, hb, h]
    rfl
  · rw [lineBest, hb]
    rfl
  · rw [lineRoot, lineBest, hb]
    rfl

theorem lcpFold_const_sig (w : Rat) (l : List LogEntry) (sig : String)
    (t : InitialGroup) (hsig : ∀ log ∈ l, lineSignature w log = sig) :
    l.foldl (lcpStep w) [(sig, t)] = [(sig, { t with Logs := t.Logs ++ l })] := by
  induction l generalizing t with
  | nil => simp
  | cons hd tl ih =>
    rw [List.foldl_cons]
    have h1 : lineSignature w hd = sig := hsig hd (List.mem_cons_self _ _)
    have hstep : lcpStep w [(sig, t)] hd = [(sig, { t with Logs := t.Logs ++ [hd] })] := by
      rw [lcpStep, h1]
      simp [mapSet]
    rw [hstep, ih _ (fun log hl => hsig log (List.mem_cons_of_mem _ hl))]
    simp [List.append_assoc]

/-- `GroupByLCP` on a group of zero-token lines: one single template
with the empty signature, `RootFrequency = -1`, containing all the
lines. -/
theorem GroupByLCP_all_empty (g : LogGroup) (w : Rat) (hne : g.Logs ≠ [])
    (hemp : ∀ log ∈ g.Logs, log.Tokens = []) :
    g.GroupByLCP w = [("", { Signature := "", Logs := g.Logs, RootFrequency := -1 })] := by
  rw [LogGroup.GroupByLCP]
  obtain ⟨log0, rest, hcons⟩ := List.exists_cons_of_ne_nil hne
  rw [hcons, List.foldl_cons]
  have h0 := line_empty w log0 (hemp log0 (hcons ▸ List.mem_cons_self _ _))
  have hstep : lcpStep w [] log0 =
      [("", { Signature := "", Logs := [log0], RootFrequency := -1 })] := by
    rw [lcpStep, h0.1]
    have : (lineBest w log0).1 = -1 := by rw [h0.2.1]
    rw [this]
    rfl
  rw [hstep, lcpFold_const_sig w rest "" _
    (fun log hl => (line_empty w log (hemp log (hcons ▸ List.mem_cons_of_mem _ hl))).1)]
  rfl

/-! ### Tokens carry no whitespace, and space-joined token lists are
distinguishable -/

theorem fieldsCharAux_no_space (l : List Char) (cur : List Char)
    (hcur : ∀ c ∈ cur, isSpace c = false) :
    ∀ piece ∈ fieldsCharAux cur l, ∀ c ∈ piece, isSpace c = false := by
  induction l generalizing cur with
  | nil =>
    intro piece hp
    rw [fieldsCharAux] at hp
    split at hp
    · cases hp
    · simp only [List.mem_singleton] at hp
      subst hp
      intro c hc
      exact hcur c (List.mem_reverse.mp hc)
  | cons d ds ih =>
    intro piece hp
    rw [fieldsCharAux] at hp
    split at hp
    case isTrue hsp =>
      split at hp
      · exact ih [] (by simp) piece hp
      · rcases List.mem_cons.mp hp with h | h
        · subst h
          intro c hc
          exact hcur c (List.mem_reverse.mp hc)
        · exact ih [] (by simp) piece h
    case isFalse hsp =>
      refine ih (d :: cur) ?_ piece hp
      intro c hc
      rcases List.mem_cons.mp hc with h | h
      · subst h
        exact Bool.not_eq_true _ ▸ hsp
      · exact hcur c h

theorem fields_no_space (s : String) :
    ∀ t ∈ fields s, ∀ c ∈ t.data, isSpace c = false := by
  intro t ht c hc
  rw [fields] at ht
  obtain ⟨cs, hcs, hmk⟩ := List.mem_map.mp ht
  subst hmk
  exact fieldsCharAux_no_space _ [] (by simp) cs hcs c hc

/-- Members of a `Vectorize` group carry whitespace-free token
contents. -/
theorem Vectorize_contents_no_space {lp : LogParser} {raw : List String}
    {len : Nat} {g : LogGroup} (hg : mapGet (lp.Vectorize raw) len = some g)
    {log : LogEntry} (hlog : log ∈ g.Logs) :
    ∀ t ∈ log.Tokens.map LogToken.Content, ∀ c ∈ t.data, isSpace c = false := by
  obtain ⟨p, hp, hlen, hcont⟩ := Vectorize_log_contents hg hlog
  rw [hcont]
  exact fields_no_space _

theorem takeWhile_append_space (xs ys : List Char)
    (h : ∀ c ∈ xs, isSpace c = false) :
    (xs ++ ' ' :: ys).takeWhile (fun c => !isSpace c) = xs ∧
    (xs ++ ' ' :: ys).dropWhile (fun c => !isSpace c) = ' ' :: ys := by
  induction xs with
  | nil =>
    constructor
    · rw [List.nil_append, List.takeWhile_cons]
      simp [isSpace]
    · rw [List.nil_append, List.dropWhile_cons]
      simp [isSpace]
  | cons x xs ih =>
    have hx : isSpace x = false := h x (List.mem_cons_self _ _)
    have ih2 := ih (fun c hc => h c (List.mem_cons_of_mem _ hc))
    constructor
    · rw [List.cons_append, List.takeWhile_cons, hx]
      simp only [Bool.not_false, if_true]
      rw [ih2.1]
    · rw [List.cons_append, List.dropWhile_cons, hx]
      simp only [Bool.not_false, if_true]
      exact ih2.2

/-- `joinSpaced` is injective on equal-length lists of whitespace-free
tokens: the spaces it inserts are recoverable. -/
theorem joinSpaced_inj (l1 : List String) : ∀ (l2 : List String),
    (∀ t ∈ l1, ∀ c ∈ t.data, isSpace c = false) →
    (∀ t ∈ l2, ∀ c ∈ t.data, isSpace c = false) →
    l1.length = l2.length → joinSpaced l1 = joinSpaced l2 → l1 = l2 := by
  induction l1 with
  | nil =>
    intro l2 _ _ hlen _
    symm
    exact List.length_eq_zero.mp hlen.symm
  | cons a r1 ih =>
    intro l2 h1 h2 hlen heq
    cases l2 with
    | nil => simp at hlen
    | cons b r2 =>
      cases r1 with
      | nil =>
        cases r2 with
        | nil =>
          rw [show joinSpaced [a] = a from rfl, show joinSpaced [b] = b from rfl] at heq
          rw [heq]
        | cons b2 r2' => simp at hlen
      | cons a2 r1' =>
        cases r2 with
        | nil => simp at hlen
        | cons b2 r2' =>
          have hJ : joinSpaced (a :: a2 :: r1') = a ++ " " ++ joinSpaced (a2 :: r1') := rfl
          have hJ2 : joinSpaced (b :: b2 :: r2') = b ++ " " ++ joinSpaced (b2 :: r2') := rfl
          rw [hJ, hJ2] at heq
          have hdata := congrArg String.data heq
          rw [String.data_append, String.data_append, String.data_append,
            String.data_append, show (" " : String).data = [' '] from rfl,
            List.append_assoc, List.append_assoc, List.singleton_append,
            List.singleton_append] at hdata
          have hta := takeWhile_append_space a.data (joinSpaced (a2 :: r1')).data
            (h1 a (List.mem_cons_self _ _))
          have htb := takeWhile_append_space b.data (joinSpaced (b2 :: r2')).data
            (h2 b (List.mem_cons_self _ _))
          have hab : a.data = b.data := by
            rw [← hta.1, ← htb.1, hdata]
          have hdrop : (' ' :: (joinSpaced (a2 :: r1')).data) =
              (' ' :: (joinSpaced (b2 :: r2')).data) := by
            rw [← hta.2, ← htb.2, hdata]
          injection hdrop with _ hJJ
          have hstr : a = b := String.ext hab
          have hJeq : joinSpaced (a2 :: r1') = joinSpaced (b2 :: r2') := String.ext hJJ
          have hrec := ih (b2 :: r2') (fun t ht => h1 t (List.mem_cons_of_mem _ ht))
            (fun t ht => h2 t (List.mem_cons_of_mem _ ht)) (by simpa using hlen) hJeq
          rw [hstr, hrec]

/-! ### Concrete instances for witnesses and counterexamples -/

/-- A parser with no masking patterns. -/
def lpNone : LogParser := { RegexPatterns := [] }

def demoRaw : List String := ["a b", "a c"]

def demoGroup : LogGroup := (mapGet (lpNone.Vectorize demoRaw) 2).getD (emptyGroup 2)

def demoT : InitialGroup :=
  (mapGet (demoGroup.GroupByLCP (1/2)) "a <*>").getD default

def demoInner : List (String × Int) := (mapGet demoGroup.ColumnCounts 0).getD []

def cexRaw : List String := ["a b", "a <*>", "c <*>"]

def cexGroup : LogGroup := (mapGet (lpNone.Vectorize cexRaw) 2).getD (emptyGroup 2)

def cexT : InitialGroup :=
  (mapGet (cexGroup.GroupByLCP (1/2)) "a <*>").getD default

def cexEmptyRaw : List String := ["", " "]

def cexEmptyGroup : LogGroup :=
  (mapGet (lpNone.Vectorize cexEmptyRaw) 0).getD (emptyGroup 0)

def c7Raw : List String := ["a b", "c d"]

def c7Group : LogGroup := (mapGet (lpNone.Vectorize c7Raw) 2).getD (emptyGroup 2)

def c6Log : LogEntry :=
  { LineID := 0,
    Tokens := [{ Content := "a", Frequency := 2 }, { Content := "b", Frequency := 1 }] }

def c6M : List (Int × List Nat) := [(1, [1]), (2, [0])]

/-! ### Claims -/

theorem NewLogParserAux_error_iff (compile : String → Except String (String → String))
    (rest : List String) : ∀ patterns,
    (∃ err, NewLogParserAux compile patterns rest = .error err) ↔
      ∃ s ∈ rest, ∃ err, compile s = .error err := by
  induction rest with
  | nil =>
    intro patterns
    simp [NewLogParserAux]
  | cons s rest ih =>
    intro patterns
    rw [NewLogParserAux]
    cases hc : compile s with
    | error e =>
      simp only
      constructor
      · intro _
        exact ⟨s, List.mem_cons_self _ _, e, hc⟩
      · intro _
        exact ⟨e, rfl⟩
    | ok re =>
      simp only
      rw [ih (patterns ++ [re])]
      constructor
      · rintro ⟨s', hs', e, he⟩
        exact ⟨s', List.mem_cons_of_mem _ hs', e, he⟩
      · rintro ⟨s', hs', e, he⟩
        rcases List.mem_cons.mp hs' with h | h
        · subst h
          rw [hc] at he
          cases he
        · exact ⟨s', h, e, he⟩

/-- C5: construction fails if and only if some supplied pattern string
fails to compile; the first failure aborts `NewLogParser` before any
line could be processed, so no parser is constructed, and this is the
only error path of the core (`Vectorize` and `GroupByLCP` are total
functions). -/
theorem C5_invalid_pattern (compile : String → Except String (String → String))
    (regexStrings : List String) :
    (∃ err, NewLogParser compile regexStrings = .error err) ↔
      ∃ s ∈ regexStrings, ∃ err, compile s = .error err := by
  rw [NewLogParser]
  exact NewLogParserAux_error_iff compile regexStrings []

/-- C3: in every length group produced by `Vectorize`, every column
present in the table has duplicate-free content keys, and its recorded
counts sum to the number of lines in the group. -/
theorem C3_column_sums (lp : LogParser) (raw : List String) (len : Nat)
    (g : LogGroup) (c : Nat) (inner : List (String × Int))
    (hg : mapGet (lp.Vectorize raw) len = some g)
    (hc : mapGet g.ColumnCounts c = some inner) :
    (keysOf inner).Nodup ∧ (inner.map Prod.snd).sum = (g.Logs.length : Int) := by
  obtain ⟨g0, hg0, hset, hlogs, hcc⟩ := Vectorize_group hg
  rw [hcc] at hc
  constructor
  · exact innerNodup_vfold lp raw.enum [] len
      (by intro j i hj; cases hj) c inner hc
  · have hlt : c < len := by
      by_contra hge
      have hmem : mapGet (ccAt ((raw.enum).foldl (vectorizeStep lp) []) len) c = none := by
        rw [ccKey_vfold]
        exact ⟨rfl, fun hlt2 => absurd hlt2 hge⟩
      rw [hc] at hmem
      cases hmem
    have hsum := sumAt_vfold lp raw.enum [] len c
    rw [if_pos hlt] at hsum
    have hzero : sumAt (ccAt ([] : List (Nat × LogGroup)) len) c = 0 := rfl
    rw [hzero, zero_add] at hsum
    have hvals : sumAt (ccAt ((raw.enum).foldl (vectorizeStep lp) []) len) c =
        (inner.map Prod.snd).sum := by
      rw [sumAt, hc]
      rfl
    have hlen : g.Logs.length =
        (raw.enum.filter (fun p => tokLen lp p.2 == len)).length := by
      rw [Vectorize_logs hg, List.length_map, List.length_map]
    rw [hvals] at hsum
    rw [hsum, hlen]

/-- Every stored token frequency is the group-table count of its own
column and content. -/
theorem Vectorize_token_freq {lp : LogParser} {raw : List String} {len : Nat}
    {g : LogGroup} (hg : mapGet (lp.Vectorize raw) len = some g) :
    ∀ log ∈ g.Logs, ∀ q ∈ log.Tokens.enum,
      q.2.Frequency = colCount g.ColumnCounts q.1 q.2.Content := by
  intro log hlog q hq
  obtain ⟨p, hp, hlen, hent⟩ := Vectorize_mem_log hg hlog
  rw [hent] at hq
  rw [List.mem_enum_iff_get?] at hq
  simp only at hq
  rw [List.get?_map, List.enum_get?] at hq
  cases hgf : (fields (lp.Preprocess p.2)).get? q.1 with
  | none =>
    rw [hgf] at hq
    cases hq
  | some c =>
    rw [hgf] at hq
    simp only [Option.map_some'] at hq
    injection hq with hq
    rw [← hq]

/-- C4: after `Vectorize`, every token's stored frequency is exactly
the count recorded in its group's table for its own column and content
pair — a group-level quantity, never a per-line count. -/
theorem C4_token_frequency (lp : LogParser) (raw : List String) (len : Nat)
    (g : LogGroup) (hg : mapGet (lp.Vectorize raw) len = some g) :
    ∀ log ∈ g.Logs, ∀ q ∈ log.Tokens.enum,
      q.2.Frequency = colCount g.ColumnCounts q.1 q.2.Content :=
  Vectorize_token_freq hg

/-- The LineIDs of a group's members are the positions of the matching
input lines, in input order. -/
theorem Vectorize_lineIDs {lp : LogParser} {raw : List String} {len : Nat}
    {g : LogGroup} (hg : mapGet (lp.Vectorize raw) len = some g) :
    g.Logs.map LogEntry.LineID =
      (raw.enum.filter (fun p => tokLen lp p.2 == len)).map Prod.fst := by
  rw [Vectorize_logs hg, List.map_map, List.map_map]
  rfl

/-- A template's member list is the in-order filtering of the group's
members by signature. -/
theorem GroupByLCP_logs_filter {lg : LogGroup} {w : Rat} {sig : String}
    {t : InitialGroup} (ht : mapGet (lg.GroupByLCP w) sig = some t) :
    t.Logs = lg.Logs.filter (fun log => lineSignature w log == sig) := by
  obtain ⟨log0, rest, hf, rfl⟩ := GroupByLCP_lookup_some.mp ht
  rw [hf]

/-- C8: each length group collects its lines in input order (the
LineIDs are the positions of the matching input lines, in order), and
every template's member list is the in-order sublist of the group's
members computing that signature. -/
theorem C8_order (lp : LogParser) (raw : List String) (w : Rat) (len : Nat)
    (g : LogGroup) (hg : mapGet (lp.Vectorize raw) len = some g) :
    g.Logs.map LogEntry.LineID =
      (raw.enum.filter (fun p => tokLen lp p.2 == len)).map Prod.fst ∧
    ∀ sig t, mapGet (g.GroupByLCP w) sig = some t →
      t.Logs = g.Logs.filter (fun log => lineSignature w log == sig) :=
  ⟨Vectorize_lineIDs hg, fun _ _ ht => GroupByLCP_logs_filter ht⟩

/-- C10: every zero-token input line lands in the length-0 group; that
group has an empty column table, all its members have no tokens, and
`GroupByLCP` puts them all into the single empty-signature template
with `RootFrequency = -1`. -/
theorem C10_zero_token (lp : LogParser) (raw : List String) (w : Rat) :
    (∀ p ∈ raw.enum, tokLen lp p.2 = 0 →
      ∃ g, mapGet (lp.Vectorize raw) 0 = some g ∧ ∃ log ∈ g.Logs, log.LineID = p.1) ∧
    (∀ g, mapGet (lp.Vectorize raw) 0 = some g →
      g.ColumnCounts = [] ∧ (∀ log ∈ g.Logs, log.Tokens = []) ∧ g.Logs ≠ [] ∧
      g.GroupByLCP w =
        [("", { Signature := "", Logs := g.Logs, RootFrequency := -1 })]) := by
  constructor
  · intro p hp hp0
    cases hv : mapGet (lp.Vectorize raw) 0 with
    | none =>
      rw [mapGet_Vectorize] at hv
      rw [Option.map_eq_none'] at hv
      rw [mapGet_vfold_none] at hv
      exact absurd hp0 (hv.2 p hp)
    | some g =>
      refine ⟨g, rfl, ?_⟩
      have hmap := Vectorize_lineIDs hv
      have : p.1 ∈ g.Logs.map LogEntry.LineID := by
        rw [hmap]
        refine List.mem_map.mpr ⟨p, ?_, rfl⟩
        exact List.mem_filter.mpr ⟨hp, beq_iff_eq.mpr hp0⟩
      obtain ⟨log, hlog, hid⟩ := List.mem_map.mp this
      exact ⟨log, hlog, hid⟩
  · intro g hg
    obtain ⟨g0, hg0, hset, hlogs, hcc⟩ := Vectorize_group hg
    have hempty : ∀ log ∈ g.Logs, log.Tokens = [] := by
      intro log hlog
      exact List.length_eq_zero.mp (Vectorize_log_length hg hlog)
    have hccnil : g.ColumnCounts = [] := by
      have hnone : ∀ i, mapGet g.ColumnCounts i = none := by
        intro i
        rw [hcc, ccKey_vfold]
        exact ⟨rfl, fun h0 => absurd h0 (Nat.not_lt_zero i)⟩
      cases hcase : g.ColumnCounts with
      | nil => rfl
      | cons hd tl =>
        obtain ⟨k, v⟩ := hd
        have := hnone k
        rw [hcase] at this
        simp [mapGet, List.lookup] at this
    have hne : g.Logs ≠ [] := by
      intro hnil
      rw [Vectorize_logs hg] at hnil
      rw [List.map_eq_nil, List.map_eq_nil] at hnil
      rw [List.filter_eq_nil_iff] at hnil
      rw [mapGet_Vectorize] at hg
      rw [Option.map_eq_some'] at hg
      obtain ⟨g1, hg1, -⟩ := hg
      have : mapGet ((raw.enum).foldl (vectorizeStep lp) []) 0 = none := by
        rw [mapGet_vfold_none]
        exact ⟨rfl, fun p hp hp0 => hnil p hp (by simp [hp0])⟩
      rw [hg1] at this
      cases this
    exact ⟨hccnil, hempty, hne, GroupByLCP_all_empty g w hne hempty⟩

/-- For every nonempty line of a `Vectorize` group and threshold
fraction in [0,1], the filtered pass succeeds and the fallback is not
entered. -/
theorem selection_no_fallback {lp : LogParser} {raw : List String} {w : Rat}
    {len : Nat} {g : LogGroup} {log : LogEntry}
    (hw0 : 0 ≤ w) (hw1 : w ≤ 1)
    (hg : mapGet (lp.Vectorize raw) len = some g)
    (hlog : log ∈ g.Logs) (hne : log.Tokens ≠ []) :
    ((buildFreqToIndices log.Tokens).foldl (selStep (lineThreshold w log)) (-1, -1)).1 ≠ -1 ∧
    lineBest w log =
      (buildFreqToIndices log.Tokens).foldl (selStep (lineThreshold w log)) (-1, -1) := by
  have hfreq := Vectorize_freq_pos hg hlog
  have hkeys : ∀ q ∈ buildFreqToIndices log.Tokens, 0 ≤ q.1 := by
    intro q hq
    obtain ⟨tok, htok, heq⟩ := mem_buildFreqToIndices_freq hq
    have := hfreq tok htok
    omega
  obtain ⟨t0, ht0⟩ := List.exists_mem_of_ne_nil _ hne
  obtain ⟨tm, htm, hmx⟩ := maxFreqInLog_mem ⟨t0, ht0, hfreq t0 ht0⟩
  have hpres : mapGet (buildFreqToIndices log.Tokens) (maxFreqInLog log.Tokens) ≠ none := by
    intro hcon
    rw [mapGet_buildFreqToIndices_eq_none_iff] at hcon
    exact absurd hmx (hcon tm htm)
  obtain ⟨idxs, hidxs⟩ := Option.ne_none_iff_exists'.mp hpres
  have hmem : (maxFreqInLog log.Tokens, idxs) ∈ buildFreqToIndices log.Tokens :=
    mem_of_mapGet_eq_some hidxs
  have hth : lineThreshold w log ≤ maxFreqInLog log.Tokens :=
    goTrunc_le_of_le_one (maxFreqInLog_nonneg _) hw0 hw1
  have hne1 := selfold_ne_neg_one (lineThreshold w log) hkeys
    ⟨(maxFreqInLog log.Tokens, idxs), hmem, hth⟩
  exact ⟨hne1, selectFrom_eq_filtered hne1⟩

/-- C9: for every nonempty line of a `Vectorize` group and every
threshold fraction in [0,1], the threshold-filtered pass finds a
candidate (its `bestFreq` is not -1), because the line's maximal
frequency passes its own threshold; hence the fallback branch guarded
by `bestFreq == -1` is not entered and the selection is exactly the
filtered pass. -/
theorem C9_fallback_unreachable (lp : LogParser) (raw : List String) (w : Rat)
    (len : Nat) (g : LogGroup) (log : LogEntry)
    (hw0 : 0 ≤ w) (hw1 : w ≤ 1)
    (hg : mapGet (lp.Vectorize raw) len = some g)
    (hlog : log ∈ g.Logs) (hne : log.Tokens ≠ []) :
    ((buildFreqToIndices log.Tokens).foldl (selStep (lineThreshold w log)) (-1, -1)).1 ≠ -1 ∧
    lineBest w log =
      (buildFreqToIndices log.Tokens).foldl (selStep (lineThreshold w log)) (-1, -1) :=
  selection_no_fallback hw0 hw1 hg hlog hne

/-- C6: the per-line selection state is invariant under any permutation
of the `freqToIndices` entries: the selected pair, the root set read
back from the map, and the resulting signature are all unchanged, so
the enumeration order of the map cannot leak into the output (and the
embedding's pipeline is a function of its inputs). -/
theorem C6_order_independence (w : Rat) (log : LogEntry)
    (m' : List (Int × List Nat))
    (hp : m'.Perm (buildFreqToIndices log.Tokens)) :
    selectFrom (lineThreshold w log) m' = lineBest w log ∧
    (mapGet m' (selectFrom (lineThreshold w log) m').1).getD [] = lineRoot w log ∧
    buildSignature ((mapGet m' (selectFrom (lineThreshold w log) m').1).getD [])
      log.Tokens = lineSignature w log := by
  have h1 : selectFrom (lineThreshold w log) m' = lineBest w log :=
    selectFrom_perm (lineThreshold w log) hp
  have hn' : (keysOf m').Nodup :=
    (hp.map Prod.fst).nodup_iff.mpr (keysOf_buildFreqToIndices_nodup log.Tokens)
  have h2 : (mapGet m' (selectFrom (lineThreshold w log) m').1).getD [] =
      lineRoot w log := by
    rw [h1, mapGet_perm hp hn']
    rfl
  exact ⟨h1, h2, by rw [h2]; rfl⟩

/-- C1 (amended): every template's signature key matches its
`Signature` field, and every member line, re-emitting root columns
literally and the rest as the wildcard per its own root set, reproduces
the template's signature.  (The original claim's strengthening that all
members of a template selected the same root column set is false; see
the counterexample.) -/
theorem C1_root_consistency (lg : LogGroup) (w : Rat) (sig : String)
    (t : InitialGroup) (h : mapGet (lg.GroupByLCP w) sig = some t) :
    t.Signature = sig ∧
    ∀ log ∈ t.Logs, buildSignature (lineRoot w log) log.Tokens = sig := by
  obtain ⟨log0, rest, hf, rfl⟩ := GroupByLCP_lookup_some.mp h
  refine ⟨rfl, ?_⟩
  intro log hlog
  have hmem : log ∈ lg.Logs.filter (fun log => lineSignature w log == sig) := by
    rw [hf]
    exact hlog
  exact beq_iff_eq.mp (List.mem_filter.mp hmem).2

/-- C1, counterexample to the claim as stated: in the pipeline run on
`["a b", "a <*>", "c <*>"]` with `w = 1/2`, the template `"a <*>"` has
two member lines whose selected root column sets differ (`[0]` versus
`[0, 1]`), though both reproduce the signature. -/
theorem C1_cex :
    mapGet (lpNone.Vectorize cexRaw) 2 = some cexGroup ∧
    mapGet (cexGroup.GroupByLCP (1/2)) "a <*>" = some cexT ∧
    cexT.Logs.length = 2 ∧
    lineSignature (1/2) (cexT.Logs.getD 0 default) = "a <*>" ∧
    lineSignature (1/2) (cexT.Logs.getD 1 default) = "a <*>" ∧
    lineRoot (1/2) (cexT.Logs.getD 0 default) = [0] ∧
    lineRoot (1/2) (cexT.Logs.getD 1 default) = [0, 1] := by
  with_unfolding_all decide

/-- Witness for C1 at the two-line demo group. -/
theorem C1_root_consistency_witness :
    mapGet (demoGroup.GroupByLCP (1/2)) "a <*>" = some demoT ∧
    (demoT.Signature = "a <*>" ∧
      ∀ log ∈ demoT.Logs, buildSignature (lineRoot (1/2) log) log.Tokens = "a <*>") :=
  ⟨by with_unfolding_all decide,
    C1_root_consistency demoGroup (1/2) "a <*>" demoT (by with_unfolding_all decide)⟩

/-- C2: for every nonempty line of a `Vectorize` group and fraction `w`
in [0,1]: the threshold is `⌊w * maxFreq⌋` with `maxFreq` the largest
frequency among the line's columns; the selected frequency meets the
threshold, its recorded column-index list is the line's root set, its
length is the stored `maxWordCount`, and among all frequencies meeting
the threshold none has a longer index list, nor an equally long one
with a larger frequency value; and every template stores as
`RootFrequency` the frequency selected for the first line bearing its
signature. -/
theorem C2_selection (lp : LogParser) (raw : List String) (w : Rat) (len : Nat)
    (g : LogGroup) (hw0 : 0 ≤ w) (hw1 : w ≤ 1)
    (hg : mapGet (lp.Vectorize raw) len = some g) :
    (∀ log ∈ g.Logs, log.Tokens ≠ [] →
      lineThreshold w log = ⌊(maxFreqInLog log.Tokens : Rat) * w⌋ ∧
      (∀ tok ∈ log.Tokens, tok.Frequency ≤ maxFreqInLog log.Tokens) ∧
      (∃ tok ∈ log.Tokens, tok.Frequency = maxFreqInLog log.Tokens) ∧
      mapGet (buildFreqToIndices log.Tokens) (lineBest w log).1 = some (lineRoot w log) ∧
      lineThreshold w log ≤ (lineBest w log).1 ∧
      (lineBest w log).2 = ((lineRoot w log).length : Int) ∧
      (∀ q ∈ buildFreqToIndices log.Tokens, lineThreshold w log ≤ q.1 →
        (q.2.length : Int) < ((lineRoot w log).length : Int) ∨
        ((q.2.length : Int) = ((lineRoot w log).length : Int) ∧
          q.1 ≤ (lineBest w log).1))) ∧
    (∀ sig t, mapGet (g.GroupByLCP w) sig = some t →
      t.Logs ≠ [] ∧ t.RootFrequency = (lineBest w t.Logs.headI).1) := by
  constructor
  · intro log hlog hne
    have hfreq := Vectorize_freq_pos hg hlog
    have hth_floor : lineThreshold w log = ⌊(maxFreqInLog log.Tokens : Rat) * w⌋ := by
      rw [lineThreshold]
      exact goTrunc_eq_floor
        (mul_nonneg (by exact_mod_cast maxFreqInLog_nonneg log.Tokens) hw0)
    obtain ⟨t0, ht0⟩ := List.exists_mem_of_ne_nil _ hne
    obtain ⟨hne1, hbest⟩ := selection_no_fallback hw0 hw1 hg hlog hne
    rcases selfold_attain (lineThreshold w log) (buildFreqToIndices log.Tokens)
      (-1, -1) with hinit | ⟨q, hq, hqth, hqeq⟩
    · rw [hinit] at hne1
      exact absurd rfl hne1
    · have hq_lookup : mapGet (buildFreqToIndices log.Tokens) q.1 = some q.2 := by
        have : (q.1, q.2) ∈ buildFreqToIndices log.Tokens := hq
        exact mapGet_eq_some_of_mem_nodup (keysOf_buildFreqToIndices_nodup _) this
      have hbest_eq : lineBest w log = (q.1, (q.2.length : Int)) := by
        rw [hbest, hqeq]
      have hroot : lineRoot w log = q.2 := by
        rw [lineRoot, hbest_eq]
        simp only
        rw [hq_lookup]
        rfl
      refine ⟨hth_floor, fun tok htok => le_maxFreqInLog htok,
        maxFreqInLog_mem ⟨t0, ht0, hfreq t0 ht0⟩, ?_, ?_, ?_, ?_⟩
      · rw [hbest_eq, hroot]
        exact hq_lookup
      · rw [hbest_eq]
        exact hqth
      · rw [hbest_eq, hroot]
      · intro q' hq' hq'th
        have hdom := selfold_domin (lineThreshold w log) (m := buildFreqToIndices log.Tokens)
          (-1, -1) hq' hq'th
        rw [hqeq] at hdom
        rw [hroot, hbest_eq]
        rcases hdom with h | ⟨h, h2⟩
        · left
          exact h
        · right
          exact ⟨h, h2⟩
  · intro sig t ht
    obtain ⟨log0, rest, hf, rfl⟩ := GroupByLCP_lookup_some.mp ht
    exact ⟨by simp, rfl⟩

/-! ### The all-distinct boundary case -/

theorem snd_mem_of_mem_enumFrom {α : Type} {q : Nat × α} {n : Nat} {l : List α}
    (hq : q ∈ List.enumFrom n l) : q.2 ∈ l := by
  obtain ⟨i, x⟩ := q
  obtain ⟨h1, h2, h3⟩ := List.mem_enumFrom hq
  rw [h3]
  exact List.getElem_mem _

theorem bfti_fold_all_one (ind : List (Nat × LogToken)) (idxs : List Nat)
    (h : ∀ q ∈ ind, q.2.Frequency = 1) :
    ind.foldl (fun m q => mapSet m q.2.Frequency (fun o => (o.getD []) ++ [q.1]))
      [(1, idxs)] = [(1, idxs ++ ind.map Prod.fst)] := by
  induction ind generalizing idxs with
  | nil => simp
  | cons hd tl ih =>
    rw [List.foldl_cons, h hd (List.mem_cons_self _ _)]
    have hstep : mapSet [((1 : Int), idxs)] 1 (fun o => (o.getD []) ++ [hd.1]) =
        [(1, idxs ++ [hd.1])] := by
      simp [mapSet]
    rw [hstep, ih _ (fun q hq => h q (List.mem_cons_of_mem _ hq))]
    simp [List.append_assoc]

/-- When every token has frequency 1, `freqToIndices` is the single
entry `1 -> all column indices in order`. -/
theorem buildFreqToIndices_all_one (toks : List LogToken) (hne : toks ≠ [])
    (h1 : ∀ tok ∈ toks, tok.Frequency = 1) :
    buildFreqToIndices toks = [(1, toks.enum.map Prod.fst)] := by
  obtain ⟨t, ts, rfl⟩ := List.exists_cons_of_ne_nil hne
  rw [buildFreqToIndices, List.enum_cons, List.foldl_cons,
    h1 t (List.mem_cons_self _ _)]
  have hstep : mapSet ([] : List (Int × List Nat)) 1 (fun o => (o.getD []) ++ [0]) =
      [(1, [0])] := rfl
  rw [hstep, bfti_fold_all_one _ _ (fun q hq =>
    h1 q.2 (List.mem_cons_of_mem _ (snd_mem_of_mem_enumFrom hq)))]
  simp

theorem maxFreqInLog_all_one (toks : List LogToken) (hne : toks ≠ [])
    (h1 : ∀ tok ∈ toks, tok.Frequency = 1) : maxFreqInLog toks = 1 := by
  obtain ⟨t, ht⟩ := List.exists_mem_of_ne_nil _ hne
  obtain ⟨tm, htm, hmx⟩ := maxFreqInLog_mem ⟨t, ht, by rw [h1 t ht]⟩
  rw [← hmx]
  exact h1 tm htm

/-- When every token has frequency 1, the selection takes frequency 1
with all columns as root. -/
theorem lineBest_all_one (w : Rat) (log : LogEntry) (hne : log.Tokens ≠ [])
    (h1 : ∀ tok ∈ log.Tokens, tok.Frequency = 1) (hw0 : 0 ≤ w) (hw1 : w ≤ 1) :
    lineBest w log = (1, (log.Tokens.length : Int)) ∧
    lineRoot w log = log.Tokens.enum.map Prod.fst := by
  have hb := buildFreqToIndices_all_one log.Tokens hne h1
  have hle : lineThreshold w log ≤ maxFreqInLog log.Tokens :=
    goTrunc_le_of_le_one (maxFreqInLog_nonneg _) hw0 hw1
  rw [maxFreqInLog_all_one log.Tokens hne h1] at hle
  have hstep : selStep (lineThreshold w log) (-1, -1) (1, log.Tokens.enum.map Prod.fst) =
      (1, ((log.Tokens.enum.map Prod.fst).length : Int)) := by
    rw [selStep_eq_pick, if_neg (by omega),
      if_pos (Or.inl (show ((-1, -1) : Int × Int).2 <
        ((log.Tokens.enum.map Prod.fst).length : Int) by
          show (-1 : Int) < _
          omega))]
  have hfold : lineBest w log = (1, ((log.Tokens.enum.map Prod.fst).length : Int)) := by
    rw [lineBest, hb, selectFrom, List.foldl_cons, List.foldl_nil, hstep,
      if_neg (by norm_num)]
  constructor
  · rw [hfold]
    simp [List.enum_length]
  · rw [lineRoot, hfold, hb]
    simp only
    have hget : mapGet [((1 : Int), log.Tokens.enum.map Prod.fst)] (1 : Int) =
        some (log.Tokens.enum.map Prod.fst) := rfl
    rw [hget]
    rfl

/-- Rooting every column emits the full token sequence. -/
theorem buildSignature_full (toks : List LogToken) :
    buildSignature (toks.enum.map Prod.fst) toks =
      joinSpaced (toks.map LogToken.Content) := by
  rw [buildSignature]
  have hpt : toks.enum.map (fun q =>
      if (toks.enum.map Prod.fst).contains q.1 then q.2.Content else "<*>") =
      toks.enum.map (fun q => q.2.Content) := by
    apply List.map_congr_left
    intro q hq
    rw [if_pos]
    exact List.elem_eq_true_of_mem (List.mem_map.mpr ⟨q, hq, rfl⟩)
  rw [hpt, show (fun q : Nat × LogToken => q.2.Content) =
    (LogToken.Content ∘ Prod.snd) from rfl, ← List.map_map, List.enum_map_snd]

/-- The content at a column of a frequency-assigned raw entry is the
field at that column. -/
theorem assign_contentAt (lp : LogParser) (p : Nat × String)
    (cc : List (Nat × List (String × Int))) (i : Nat) :
    ((assignFreqsEntry cc (rawEntry lp p)).Tokens.get? i).map LogToken.Content =
      (fields (lp.Preprocess p.2)).get? i := by
  simp only [assignFreqsEntry, rawEntry, List.enum_map, List.map_map,
    List.get?_map, List.enum_get?]
  cases (fields (lp.Preprocess p.2)).get? i <;> rfl

/-- The table count of `(i, s)` equals the number of member lines whose
token at column `i` has content `s`. -/
theorem Vectorize_colCount_members {lp : LogParser} {raw : List String}
    {len : Nat} {g : LogGroup} (hg : mapGet (lp.Vectorize raw) len = some g)
    (i : Nat) (s : String) :
    colCount g.ColumnCounts i s =
      ((g.Logs.filter (fun log =>
        (log.Tokens.get? i).map LogToken.Content == some s)).length : Int) := by
  rw [Vectorize_colCount hg i s]
  congr 1
  rw [Vectorize_logs hg, List.map_map,
    ← List.countP_eq_length_filter, ← List.countP_eq_length_filter,
    List.countP_map, List.countP_filter]
  apply List.countP_congr
  intro p hp
  have hcomp : ((fun log => (log.Tokens.get? i).map LogToken.Content == some s) ∘
      (assignFreqsEntry g.ColumnCounts ∘ rawEntry lp)) p =
      ((fields (lp.Preprocess p.2)).get? i == some s) := by
    show (((assignFreqsEntry g.ColumnCounts (rawEntry lp p)).Tokens.get? i).map
      LogToken.Content == some s) = _
    rw [assign_contentAt]
  rw [hcomp, Bool.and_comm]

/-- Length-one lines of an all-frequency-1 group get their full literal
text as signature. -/
theorem lineSignature_all_one (w : Rat) (log : LogEntry) (hne : log.Tokens ≠ [])
    (h1 : ∀ tok ∈ log.Tokens, tok.Frequency = 1) (hw0 : 0 ≤ w) (hw1 : w ≤ 1) :
    lineSignature w log = joinSpaced (log.Tokens.map LogToken.Content) := by
  rw [lineSignature, (lineBest_all_one w log hne h1 hw0 hw1).2, buildSignature_full]

/-- A list is duplicate-free when each of its members occurs at most
once, counted with `countP`. -/
theorem nodup_of_countP_le_one {α : Type} [DecidableEq α] : ∀ (l : List α),
    (∀ a ∈ l, l.countP (fun x => x == a) ≤ 1) → l.Nodup := by
  intro l
  induction l with
  | nil =>
    intro _
    exact List.nodup_nil
  | cons hd tl ih =>
    intro h
    rw [List.nodup_cons]
    refine ⟨?_, ih ?_⟩
    · intro hmem
      have hh := h hd (List.mem_cons_self _ _)
      rw [List.countP_cons] at hh
      simp only [beq_self_eq_true, if_true] at hh
      have h1 : tl.countP (fun x => x == hd) = 0 := by omega
      rw [List.countP_eq_zero] at h1
      exact h1 hd hmem (by simp)
    · intro a ha
      have hh := h a (List.mem_cons_of_mem _ ha)
      rw [List.countP_cons] at hh
      exact le_trans (Nat.le_add_right _ _) hh

/-- In an all-frequency-1 group with at least one column, distinct
member lines have distinct content sequences. -/
theorem Vectorize_contents_nodup {lp : LogParser} {raw : List String} {len : Nat}
    {g : LogGroup} (hg : mapGet (lp.Vectorize raw) len = some g) (hlen : 1 ≤ len)
    (h1 : ∀ log ∈ g.Logs, ∀ tok ∈ log.Tokens, tok.Frequency = 1) :
    (g.Logs.map (fun log => log.Tokens.map LogToken.Content)).Nodup := by
  apply nodup_of_countP_le_one
  intro c hc
  rw [List.countP_map]
  obtain ⟨log0, hlog0, hc0⟩ := List.mem_map.mp hc
  have hlog0len : log0.Tokens.length = len := Vectorize_log_length hg hlog0
  have h0lt : 0 < log0.Tokens.length := by omega
  set tok0 := log0.Tokens.get ⟨0, h0lt⟩ with htok0
  have hget0 : log0.Tokens.get? 0 = some tok0 := List.get?_eq_get h0lt
  have htokmem : tok0 ∈ log0.Tokens := List.get_mem _ _ _
  have hfreq : tok0.Frequency = colCount g.ColumnCounts 0 tok0.Content :=
    Vectorize_token_freq hg log0 hlog0 (0, tok0) (List.mem_enum_iff_get?.mpr hget0)
  have hcc : colCount g.ColumnCounts 0 tok0.Content = 1 := by
    rw [← hfreq, h1 log0 hlog0 tok0 htokmem]
  have hfil := Vectorize_colCount_members hg 0 tok0.Content
  rw [hcc] at hfil
  have hfil1 : (g.Logs.filter (fun log =>
      (log.Tokens.get? 0).map LogToken.Content == some tok0.Content)).length = 1 := by
    omega
  have key : g.Logs.countP (fun log =>
      (log.Tokens.get? 0).map LogToken.Content == some tok0.Content) = 1 := by
    rw [List.countP_eq_length_filter]
    exact hfil1
  refine le_trans (List.countP_mono_left ?_) (le_of_eq key)
  intro log hlog hpc
  have heqc : log.Tokens.map LogToken.Content = c := by simpa using hpc
  apply beq_iff_eq.mpr
  rw [show (log.Tokens.get? 0).map LogToken.Content =
      (log.Tokens.map LogToken.Content).get? 0 from (List.get?_map _ _ _).symm,
    heqc, ← hc0,
    show (log0.Tokens.map LogToken.Content).get? 0 =
      (log0.Tokens.get? 0).map LogToken.Content from List.get?_map _ _ _,
    hget0]
  rfl

/-- In an all-frequency-1 group with at least one column, the member
signatures are pairwise distinct. -/
theorem Vectorize_sigs_nodup {lp : LogParser} {raw : List String} {len : Nat}
    {g : LogGroup} {w : Rat} (hg : mapGet (lp.Vectorize raw) len = some g)
    (hlen : 1 ≤ len) (hw0 : 0 ≤ w) (hw1 : w ≤ 1)
    (h1 : ∀ log ∈ g.Logs, ∀ tok ∈ log.Tokens, tok.Frequency = 1) :
    (g.Logs.map (lineSignature w)).Nodup := by
  have hmap : g.Logs.map (lineSignature w) =
      (g.Logs.map (fun log => log.Tokens.map LogToken.Content)).map joinSpaced := by
    rw [List.map_map]
    apply List.map_congr_left
    intro log hlog
    have hne : log.Tokens ≠ [] := by
      intro hcon
      have hl := Vectorize_log_length hg hlog
      rw [hcon] at hl
      simp at hl
      omega
    exact lineSignature_all_one w log hne (h1 log hlog) hw0 hw1
  rw [hmap]
  apply List.Nodup.map_on ?_ (Vectorize_contents_nodup hg hlen h1)
  intro x hx y hy hxy
  obtain ⟨lx, hlx, hlxe⟩ := List.mem_map.mp hx
  obtain ⟨ly, hly, hlye⟩ := List.mem_map.mp hy
  apply joinSpaced_inj
  · rw [← hlxe]
    exact Vectorize_contents_no_space hg hlx
  · rw [← hlye]
    exact Vectorize_contents_no_space hg hly
  · rw [← hlxe, ← hlye]
    simp only [List.length_map]
    rw [Vectorize_log_length hg hlx, Vectorize_log_length hg hly]
  · exact hxy

/-- Overwriting an absent key of a modelled Go map appends one entry. -/
theorem mapSet_length_of_none {α β : Type} [BEq α] [LawfulBEq α]
    {m : List (α × β)} {k : α} (f : Option β → β) (h : mapGet m k = none) :
    (mapSet m k f).length = m.length + 1 := by
  have hk := congrArg List.length (keysOf_mapSet_of_none f h)
  simpa [keysOf] using hk

/-- Folding `lcpStep` over lines with pairwise-distinct signatures that
are all absent from the accumulator adds one map entry per line. -/
theorem lcpFold_length (w : Rat) (l : List LogEntry) : ∀ acc,
    (l.map (lineSignature w)).Nodup →
    (∀ log ∈ l, mapGet acc (lineSignature w log) = none) →
    (l.foldl (lcpStep w) acc).length = acc.length + l.length := by
  induction l with
  | nil =>
    intro acc _ _
    simp
  | cons hd tl ih =>
    intro acc hnodup hfresh
    have hnd := hnodup
    rw [List.map_cons, List.nodup_cons] at hnd
    rw [List.foldl_cons]
    have hsteplen : (lcpStep w acc hd).length = acc.length + 1 := by
      rw [lcpStep]
      exact mapSet_length_of_none _ (hfresh hd (List.mem_cons_self _ _))
    rw [ih (lcpStep w acc hd) hnd.2 ?_, hsteplen, List.length_cons]
    · omega
    · intro log hlog
      rw [lcpStep, mapGet_mapSet_eq_none_iff]
      refine ⟨hfresh log (List.mem_cons_of_mem _ hlog), ?_⟩
      intro hcon
      exact hnd.1 (hcon ▸ List.mem_map.mpr ⟨log, hlog, rfl⟩)

/-- In an all-frequency-1 group with at least one column, `GroupByLCP`
produces as many templates as the group has lines. -/
theorem GroupByLCP_all_one_length {lp : LogParser} {raw : List String} {len : Nat}
    {g : LogGroup} {w : Rat} (hg : mapGet (lp.Vectorize raw) len = some g)
    (hlen : 1 ≤ len) (hw0 : 0 ≤ w) (hw1 : w ≤ 1)
    (h1 : ∀ log ∈ g.Logs, ∀ tok ∈ log.Tokens, tok.Frequency = 1) :
    (g.GroupByLCP w).length = g.Logs.length := by
  rw [LogGroup.GroupByLCP, lcpFold_length w g.Logs []
    (Vectorize_sigs_nodup hg hlen hw0 hw1 h1) (fun log _ => rfl)]
  simp

/-- In an all-frequency-1 group with at least one column, every template
holds exactly one member line and its key is that line's literal text. -/
theorem GroupByLCP_all_one_members {lp : LogParser} {raw : List String} {len : Nat}
    {g : LogGroup} {w : Rat} (hg : mapGet (lp.Vectorize raw) len = some g)
    (hlen : 1 ≤ len) (hw0 : 0 ≤ w) (hw1 : w ≤ 1)
    (h1 : ∀ log ∈ g.Logs, ∀ tok ∈ log.Tokens, tok.Frequency = 1)
    (sig : String) (t : InitialGroup)
    (ht : mapGet (g.GroupByLCP w) sig = some t) :
    ∃ log ∈ g.Logs, t.Logs = [log] ∧
      sig = joinSpaced (log.Tokens.map LogToken.Content) := by
  obtain ⟨log0, rest, hf, rfl⟩ := GroupByLCP_lookup_some.mp ht
  have hcount : (g.Logs.map (lineSignature w)).count sig ≤ 1 :=
    List.nodup_iff_count_le_one.mp (Vectorize_sigs_nodup hg hlen hw0 hw1 h1) sig
  have hcp : (g.Logs.map (lineSignature w)).count sig =
      g.Logs.countP (fun log => lineSignature w log == sig) := by
    rw [List.count, List.countP_map]
    rfl
  have hlen1 : (log0 :: rest).length ≤ 1 := by
    rw [← hf, ← List.countP_eq_length_filter, ← hcp]
    exact hcount
  have hrest : rest = [] := by
    rw [List.length_cons] at hlen1
    exact List.length_eq_zero.mp (by omega)
  subst hrest
  have hmem0 : log0 ∈ g.Logs.filter (fun log => lineSignature w log == sig) := by
    rw [hf]
    exact List.mem_cons_self _ _
  obtain ⟨hmem, hsig⟩ := List.mem_filter.mp hmem0
  refine ⟨log0, hmem, rfl, ?_⟩
  have hne : log0.Tokens ≠ [] := by
    intro hcon
    have hl := Vectorize_log_length hg hmem
    rw [hcon] at hl
    simp at hl
    omega
  rw [← beq_iff_eq.mp hsig, lineSignature_all_one w log0 hne (h1 log0 hmem) hw0 hw1]

/-- C7 (amended with `1 ≤ len`): in every length group of at least one
column in which every token of every line has frequency 1 and for every
threshold fraction in [0,1], each line's selected root set is all of
its columns (never empty), its signature is its full literal text, and
`GroupByLCP` produces exactly one template per line, each holding
exactly that one line.  (The original claim, without the length bound,
is false: a group of zero-token lines satisfies the frequency
hypothesis vacuously yet merges all its lines into one template with an
empty root set; see the counterexample.) -/
theorem C7_all_distinct (lp : LogParser) (raw : List String) (len : Nat)
    (g : LogGroup) (w : Rat) (hg : mapGet (lp.Vectorize raw) len = some g)
    (hlen : 1 ≤ len) (hw0 : 0 ≤ w) (hw1 : w ≤ 1)
    (h1 : ∀ log ∈ g.Logs, ∀ tok ∈ log.Tokens, tok.Frequency = 1) :
    (∀ log ∈ g.Logs,
        lineRoot w log = log.Tokens.enum.map Prod.fst ∧
        lineRoot w log ≠ [] ∧
        lineSignature w log = joinSpaced (log.Tokens.map LogToken.Content)) ∧
    (g.GroupByLCP w).length = g.Logs.length ∧
    ∀ sig t, mapGet (g.GroupByLCP w) sig = some t →
      ∃ log ∈ g.Logs, t.Logs = [log] ∧
        sig = joinSpaced (log.Tokens.map LogToken.Content) := by
  refine ⟨?_, GroupByLCP_all_one_length hg hlen hw0 hw1 h1,
    fun sig t => GroupByLCP_all_one_members hg hlen hw0 hw1 h1 sig t⟩
  intro log hlog
  have hne : log.Tokens ≠ [] := by
    intro hcon
    have hl := Vectorize_log_length hg hlog
    rw [hcon] at hl
    simp at hl
    omega
  have hroot := (lineBest_all_one w log hne (h1 log hlog) hw0 hw1).2
  refine ⟨hroot, ?_, lineSignature_all_one w log hne (h1 log hlog) hw0 hw1⟩
  rw [hroot]
  intro hcon
  simp at hcon
  exact hne hcon

/-- C7, counterexample to the claim as stated: the length-0 group of
two whitespace-only lines vacuously satisfies "every column of every
line has frequency 1", yet `GroupByLCP` merges both lines into a single
template and each line's root set is empty. -/
theorem C7_cex :
    mapGet (lpNone.Vectorize cexEmptyRaw) 0 = some cexEmptyGroup ∧
    (∀ log ∈ cexEmptyGroup.Logs, ∀ tok ∈ log.Tokens, tok.Frequency = 1) ∧
    cexEmptyGroup.Logs.length = 2 ∧
    (cexEmptyGroup.GroupByLCP (1/2)).length = 1 ∧
    ∀ log ∈ cexEmptyGroup.Logs, lineRoot (1/2) log = [] := by
  with_unfolding_all decide

/-- Witness for C7 at a two-line, two-column, all-distinct group. -/
theorem C7_all_distinct_witness :
    (mapGet (lpNone.Vectorize c7Raw) 2 = some c7Group ∧ (1:Nat) ≤ 2 ∧
      (0:Rat) ≤ 1/2 ∧ (1/2:Rat) ≤ 1 ∧
      ∀ log ∈ c7Group.Logs, ∀ tok ∈ log.Tokens, tok.Frequency = 1) ∧
    ((∀ log ∈ c7Group.Logs,
        lineRoot (1/2) log = log.Tokens.enum.map Prod.fst ∧
        lineRoot (1/2) log ≠ [] ∧
        lineSignature (1/2) log = joinSpaced (log.Tokens.map LogToken.Content)) ∧
      (c7Group.GroupByLCP (1/2)).length = c7Group.Logs.length ∧
      ∀ sig t, mapGet (c7Group.GroupByLCP (1/2)) sig = some t →
        ∃ log ∈ c7Group.Logs, t.Logs = [log] ∧
          sig = joinSpaced (log.Tokens.map LogToken.Content)) :=
  ⟨⟨by with_unfolding_all decide, by decide, by norm_num, by norm_num,
      by with_unfolding_all decide⟩,
    C7_all_distinct lpNone c7Raw 2 c7Group (1/2) (by with_unfolding_all decide)
      (by decide) (by norm_num) (by norm_num) (by with_unfolding_all decide)⟩

/-- Witness for C2 at the two-line demo group. -/
theorem C2_selection_witness :
    ((0:Rat) ≤ 1/2 ∧ (1/2:Rat) ≤ 1 ∧
      mapGet (lpNone.Vectorize demoRaw) 2 = some demoGroup) ∧
    ((∀ log ∈ demoGroup.Logs, log.Tokens ≠ [] →
      lineThreshold (1/2) log = ⌊(maxFreqInLog log.Tokens : Rat) * (1/2)⌋ ∧
      (∀ tok ∈ log.Tokens, tok.Frequency ≤ maxFreqInLog log.Tokens) ∧
      (∃ tok ∈ log.Tokens, tok.Frequency = maxFreqInLog log.Tokens) ∧
      mapGet (buildFreqToIndices log.Tokens) (lineBest (1/2) log).1 =
        some (lineRoot (1/2) log) ∧
      lineThreshold (1/2) log ≤ (lineBest (1/2) log).1 ∧
      (lineBest (1/2) log).2 = ((lineRoot (1/2) log).length : Int) ∧
      (∀ q ∈ buildFreqToIndices log.Tokens, lineThreshold (1/2) log ≤ q.1 →
        (q.2.length : Int) < ((lineRoot (1/2) log).length : Int) ∨
        ((q.2.length : Int) = ((lineRoot (1/2) log).length : Int) ∧
          q.1 ≤ (lineBest (1/2) log).1))) ∧
    (∀ sig t, mapGet (demoGroup.GroupByLCP (1/2)) sig = some t →
      t.Logs ≠ [] ∧ t.RootFrequency = (lineBest (1/2) t.Logs.headI).1)) :=
  ⟨⟨by norm_num, by norm_num, by with_unfolding_all decide⟩,
    C2_selection lpNone demoRaw (1/2) 2 demoGroup (by norm_num) (by norm_num)
      (by with_unfolding_all decide)⟩

/-- Witness for C3 at column 0 of the demo group. -/
theorem C3_column_sums_witness :
    (mapGet (lpNone.Vectorize demoRaw) 2 = some demoGroup ∧
      mapGet demoGroup.ColumnCounts 0 = some demoInner) ∧
    ((keysOf demoInner).Nodup ∧
      (demoInner.map Prod.snd).sum = (demoGroup.Logs.length : Int)) :=
  ⟨⟨by with_unfolding_all decide, by with_unfolding_all decide⟩,
    C3_column_sums lpNone demoRaw 2 demoGroup 0 demoInner
      (by with_unfolding_all decide) (by with_unfolding_all decide)⟩

/-- Witness for C4 at the two-line demo group. -/
theorem C4_token_frequency_witness :
    (mapGet (lpNone.Vectorize demoRaw) 2 = some demoGroup) ∧
    (∀ log ∈ demoGroup.Logs, ∀ q ∈ log.Tokens.enum,
      q.2.Frequency = colCount demoGroup.ColumnCounts q.1 q.2.Content) :=
  ⟨by with_unfolding_all decide,
    C4_token_frequency lpNone demoRaw 2 demoGroup (by with_unfolding_all decide)⟩

/-- Witness for C6 at a two-entry frequency map listed in reversed
order. -/
theorem C6_order_independence_witness :
    (c6M.Perm (buildFreqToIndices c6Log.Tokens)) ∧
    (selectFrom (lineThreshold (1/2) c6Log) c6M = lineBest (1/2) c6Log ∧
      (mapGet c6M (selectFrom (lineThreshold (1/2) c6Log) c6M).1).getD [] =
        lineRoot (1/2) c6Log ∧
      buildSignature ((mapGet c6M (selectFrom (lineThreshold (1/2) c6Log) c6M).1).getD [])
        c6Log.Tokens = lineSignature (1/2) c6Log) :=
  ⟨by decide, C6_order_independence (1/2) c6Log c6M (by decide)⟩

/-- Witness for C8 at the two-line demo group. -/
theorem C8_order_witness :
    (mapGet (lpNone.Vectorize demoRaw) 2 = some demoGroup) ∧
    (demoGroup.Logs.map LogEntry.LineID =
        (demoRaw.enum.filter (fun p => tokLen lpNone p.2 == 2)).map Prod.fst ∧
      ∀ sig t, mapGet (demoGroup.GroupByLCP (1/2)) sig = some t →
        t.Logs = demoGroup.Logs.filter (fun log => lineSignature (1/2) log == sig)) :=
  ⟨by with_unfolding_all decide,
    C8_order lpNone demoRaw (1/2) 2 demoGroup (by with_unfolding_all decide)⟩

/-- Witness for C9 at the first line of the demo group. -/
theorem C9_fallback_unreachable_witness :
    ((0:Rat) ≤ 1/2 ∧ (1/2:Rat) ≤ 1 ∧
      mapGet (lpNone.Vectorize demoRaw) 2 = some demoGroup ∧
      demoGroup.Logs.headI ∈ demoGroup.Logs ∧ demoGroup.Logs.headI.Tokens ≠ []) ∧
    (((buildFreqToIndices demoGroup.Logs.headI.Tokens).foldl
        (selStep (lineThreshold (1/2) demoGroup.Logs.headI)) (-1, -1)).1 ≠ -1 ∧
      lineBest (1/2) demoGroup.Logs.headI =
        (buildFreqToIndices demoGroup.Logs.headI.Tokens).foldl
          (selStep (lineThreshold (1/2) demoGroup.Logs.headI)) (-1, -1)) :=
  ⟨⟨by norm_num, by norm_num, by with_unfolding_all decide,
      by with_unfolding_all decide, by with_unfolding_all decide⟩,
    C9_fallback_unreachable lpNone demoRaw (1/2) 2 demoGroup demoGroup.Logs.headI
      (by norm_num) (by norm_num) (by with_unfolding_all decide)
      (by with_unfolding_all decide) (by with_unfolding_all decide)⟩

end BrainGo
